import Mathlib

/-!
Verification development for the txt2ppt slide generator
(`src/txt2ppt.ts`): a markdown-like text parser producing slide records,
and a paginator placing the resulting blocks on fixed-size pages.

Strings are modelled as lists of characters (`Str := List Char`), and the
JavaScript floating-point layout arithmetic as exact rationals (`ℚ`).
Recursive loops from the source are modelled with explicit fuel so that all
definitions compute by kernel reduction; the fuel supplied by the top-level
wrappers matches the bound the source loops satisfy.
-/

set_option maxHeartbeats 1000000

namespace TxtPpt

/-- ASCII whitespace, as recognised by JavaScript `trim`/`\s` on the ASCII
range (space, tab, line feed, carriage return, vertical tab, form feed). -/
def isWS (c : Char) : Bool :=
  c = ' ' || c = '\t' || c = '\n' || c = '\r' || c = '\x0b' || c = '\x0c'

/-- Strings are modelled as lists of characters. -/
abbrev Str := List Char

/-- JavaScript `String.prototype.trimStart`. -/
def trimStart (s : Str) : Str := s.dropWhile isWS

/-- JavaScript `String.prototype.trimEnd`. -/
def trimEnd (s : Str) : Str := (s.reverse.dropWhile isWS).reverse

/-- JavaScript `String.prototype.trim`. -/
def trim (s : Str) : Str := trimStart (trimEnd s)

/-- Decimal digits of a natural number, most significant first, with fuel
(`n + 1` suffices since `n / 10 < n` for positive `n`). -/
def natStrCore : Nat → Nat → Str
  | 0, _ => []
  | fuel + 1, n =>
    if n < 10 then [Nat.digitChar n]
    else natStrCore fuel (n / 10) ++ [Nat.digitChar (n % 10)]

/-- Decimal representation of a natural number (for `Slide ${n}` titles). -/
def natStr (n : Nat) : Str := natStrCore (n + 1) n

/-- `s.startsWith p` on character lists. -/
def startsWithS : Str → Str → Bool
  | [], _ => true
  | _ :: _, [] => false
  | p :: ps, c :: cs => p = c && startsWithS ps cs

/-- `s.endsWith p` on character lists. -/
def endsWithS (p s : Str) : Bool := startsWithS p.reverse s.reverse

/-- ASCII lower-casing of a character (for the case-insensitive regexps). -/
def lowerCh (c : Char) : Char :=
  if 'A' ≤ c && c ≤ 'Z' then Char.ofNat (c.toNat + 32) else c

/-- Case-insensitive `startsWith` (ASCII). -/
def startsWithCIS : Str → Str → Bool
  | [], _ => true
  | _ :: _, [] => false
  | p :: ps, c :: cs => lowerCh p = lowerCh c && startsWithCIS ps cs

/-- Case-insensitive `endsWith` (ASCII). -/
def endsWithCIS (p s : Str) : Bool := startsWithCIS p.reverse s.reverse

/-- JavaScript `s.split(sep)` for a single-character separator: always
returns at least one piece, and `"".split(sep) = [""]`. -/
def splitOnChar (sep : Char) : Str → List Str
  | [] => [[]]
  | c :: rest =>
    match splitOnChar sep rest with
    | [] => if c = sep then [[], []] else [[c]]
    | h :: t => if c = sep then [] :: h :: t else (c :: h) :: t

/-- `text.split(/\n/)`. -/
def splitNL : Str → List Str := splitOnChar '\n'

/-- `lines.join("\n")`. -/
def joinNL : List Str → Str
  | [] => []
  | [s] => s
  | s :: rest => s ++ '\n' :: joinNL rest

/-- `rawText.replace(/\r\n?/g, "\n")`: newline normalization. -/
def normNL : Str → Str
  | [] => []
  | '\r' :: '\n' :: rest => '\n' :: normNL rest
  | '\r' :: rest => '\n' :: normNL rest
  | c :: rest => c :: normNL rest

/-! ## Data model (`BulletItem`, `Block`, `SlideSpec` from the source) -/

inductive BulletType where
  | bullet
  | number
deriving DecidableEq, Repr

structure BulletItem where
  text : Str
  bulletType : BulletType
  indentLevel : Nat
deriving DecidableEq, Repr

inductive Sizing where
  | cover
  | contain
deriving DecidableEq, Repr

inductive Block where
  | paragraph (text : Str)
  | bullets (items : List BulletItem)
  | image (alt : Str) (path : Str) (sizing : Option Sizing)
  | code (text : Str) (language : Option Str)
  | table (rows : List (List Str))
deriving DecidableEq, Repr

structure SlideSpec where
  title : Str
  subtitle : Option Str
  blocks : List Block
  notes : Option Str
  background : Option Str
deriving DecidableEq, Repr

/-- Ghost annotation recording which branch created a slide: from a heading
line with non-blank title text, or auto-titled (implicit creation on first
content, or a heading whose title text was blank).  The `SlideSpec` parts of
the parser state are computed exactly as in the source; this tag adds no
information to them and is erased by `parseSlides`. -/
inductive SlideOrigin where
  | fromHeading
  | autoTitled
deriving DecidableEq, Repr

structure CodeAcc where
  language : Option Str
  lines : List Str
deriving DecidableEq, Repr

structure ParseState where
  slides : List (SlideSpec × SlideOrigin)
  current : Option (SlideSpec × SlideOrigin)
  codeBlock : Option CodeAcc
deriving DecidableEq, Repr

/-! ## Line classification (the regexps of the source) -/

/-- `CODE_FENCE_REGEX = /^```/`. -/
def isCodeFence (l : Str) : Bool := startsWithS "```".data l

/-- `SUBTITLE_REGEX = /^##\s+/`. -/
def subtitleTest (t : Str) : Bool :=
  match t with
  | '#' :: '#' :: c :: _ => isWS c
  | _ => false

/-- `HEADING_REGEX = /^#\s+/`. -/
def headingTest (t : Str) : Bool :=
  match t with
  | '#' :: c :: _ => isWS c
  | _ => false

/-- `NOTE_REGEX = /^>note:/i`. -/
def noteTest (t : Str) : Bool := startsWithCIS ">note:".data t

/-- `BACKGROUND_REGEX = /^>bg:/i`. -/
def bgTest (t : Str) : Bool := startsWithCIS ">bg:".data t

/-- A character allowed in the interior of a table separator row
(`[\s:-]`). -/
def sepChar (c : Char) : Bool := isWS c || c = ':' || c = '-'

/-- `/^\|[\s:-]+\|$/.test(t)`: a pipe, a non-empty run of whitespace,
colons and dashes, and a closing pipe.  Note the character class does not
include `|`, so a line such as `|---|---|` does NOT match. -/
def sepRowTest (t : Str) : Bool :=
  match t with
  | '|' :: rest =>
    match rest.reverse with
    | '|' :: innerRev => innerRev ≠ [] && innerRev.all sepChar
    | _ => false
  | _ => false

/-- `isTableLine` from the source: trimmed line starts and ends with `|`,
is not a pure separator row, and contains a `|`. -/
def isTableLine (line : Str) : Bool :=
  let t := trim line
  if !(startsWithS "|".data t && endsWithS "|".data t) then false
  else if sepRowTest t then false
  else t.contains '|'

/-- `BULLET_REGEX = /^(\s*)([-*]|\d+\.)\s+(.*)$/`: returns the captured
leading whitespace, the marker, and the text after the separating
whitespace (the greedy `\s+` takes all of it). -/
def bulletMatchF (l : Str) : Option (Str × Str × Str) :=
  let ws := l.takeWhile isWS
  let rest := l.dropWhile isWS
  let afterMarker : Str → Str → Option (Str × Str × Str) := fun marker r =>
    match r with
    | c :: _ => if isWS c then some (ws, marker, r.dropWhile isWS) else none
    | [] => none
  match rest with
  | '-' :: r => afterMarker ['-'] r
  | '*' :: r => afterMarker ['*'] r
  | c :: _ =>
    if c.isDigit then
      let ds := rest.takeWhile Char.isDigit
      match rest.dropWhile Char.isDigit with
      | '.' :: r => afterMarker (ds ++ ['.']) r
      | _ => none
    else none
  | [] => none

/-- Splits a string at the first occurrence of the two-character sequence
`](`, returning the parts before and after it (the lazy group of
`IMAGE_REGEX`). -/
def findRB : Str → Option (Str × Str)
  | [] => none
  | ']' :: '(' :: rest => some ([], rest)
  | c :: rest =>
    match findRB (c :: rest).tail with
    | some p => some (c :: p.1, p.2)
    | none => none

/-- `IMAGE_REGEX = /^\s*!\[(.*?)]\((.+)\)\s*$/`: optional leading
whitespace, `![`, a lazily matched alt text up to the first `](`, a
non-empty target, a closing `)` and optional trailing whitespace.
Returns `(altRaw, pathRaw)`. -/
def imageMatchF (l : Str) : Option (Str × Str) :=
  match l.dropWhile isWS with
  | '!' :: '[' :: rest =>
    match findRB rest with
    | some (altRaw, after) =>
      let r := trimEnd after
      match r.reverse with
      | ')' :: c :: ps => some (altRaw, (c :: ps).reverse)
      | _ => none
    | none => none
  | _ => none

/-- `pathRaw.split(/#(cover|contain)$/i)`: strips a trailing `#cover` or
`#contain` tag (case-insensitive) and reports the sizing mode. -/
def splitSizing (pathRaw : Str) : Str × Option Sizing :=
  if endsWithCIS "#cover".data pathRaw then
    (pathRaw.dropLast.dropLast.dropLast.dropLast.dropLast.dropLast, some Sizing.cover)
  else if endsWithCIS "#contain".data pathRaw then
    (pathRaw.take (pathRaw.length - 8), some Sizing.contain)
  else (pathRaw, none)

/-! ## Block collectors -/

/-- `MAX_INDENT_LEVEL`. -/
def MAX_INDENT_LEVEL : Nat := 3

/-- `/^\d+\.$/.test(marker)`. -/
def isNumberMarker (m : Str) : Bool :=
  match m.reverse with
  | '.' :: ds => ds ≠ [] && ds.all Char.isDigit
  | _ => false

/-- One bullet item from a regexp match, as in `collectBullets`:
tabs count as two spaces for the indent width, `indentLevel` is the
half-width clamped to `MAX_INDENT_LEVEL`. -/
def bulletItemOf (ws marker text : Str) : BulletItem :=
  let indentSpaces := ws.foldl (fun n c => n + if c = '\t' then 2 else 1) 0
  { text := trim text
    bulletType := if isNumberMarker marker then BulletType.number else BulletType.bullet
    indentLevel := min (indentSpaces / 2) MAX_INDENT_LEVEL }

/-- The row parsed from one table line: strip the outer pipes of the
trimmed line, split on `|`, trim each cell. -/
def rowOfLine (line : Str) : List Str :=
  let candidate := trim line
  let inner := (candidate.drop 1).dropLast
  (splitOnChar '|' inner).map trim

/-- `collectTable`: the maximal run of table lines from the current
position, together with the remaining lines. -/
def collectTable : List Str → List (List Str) × List Str
  | [] => ([], [])
  | l :: rest =>
    if isTableLine l then
      let r := collectTable rest
      (rowOfLine l :: r.1, r.2)
    else ([], l :: rest)

/-- `collectBullets`: the maximal run of bullet-matching lines from the
current position, together with the remaining lines. -/
def collectBullets : List Str → List BulletItem × List Str
  | [] => ([], [])
  | l :: rest =>
    match bulletMatchF l with
    | none => ([], l :: rest)
    | some m =>
      let r := collectBullets rest
      (bulletItemOf m.1 m.2.1 m.2.2 :: r.1, r.2)

/-- `isBlockBoundary` from the source. -/
def isBlockBoundary (line : Str) : Bool :=
  let trimmed := trim line
  if trimmed = [] then true
  else
    isCodeFence trimmed || subtitleTest trimmed || headingTest trimmed ||
    noteTest trimmed || bgTest trimmed || (imageMatchF line).isSome ||
    isTableLine trimmed || (bulletMatchF line).isSome

/-- The look-ahead loop of `collectParagraph`: the following lines joined
into the paragraph are those that are non-blank and not a block boundary;
each is trimmed.  Returns them and the remaining lines. -/
def collectParaRest : List Str → List Str × List Str
  | [] => ([], [])
  | l :: rest =>
    if trim l ≠ [] && !isBlockBoundary l then
      let r := collectParaRest rest
      (trim l :: r.1, r.2)
    else ([], l :: rest)

/-! ## Parser state operations -/

/-- The auto-generated title `Slide ${n}`. -/
def slideDefaultTitle (n : Nat) : Str := "Slide ".data ++ natStr n

/-- `finalizeCurrentSlide`: seal the current slide into the output. -/
def finalizeCurrentSlide (st : ParseState) : ParseState :=
  match st.current with
  | some c => { st with slides := st.slides ++ [c], current := none }
  | none => st

/-- `startNewSlide`: seal the current slide and open a new one.  The title
is the trimmed `rawTitle` when non-blank, else `Slide ${n}` with `n` the
1-based position the new slide will occupy.  `fromHeadingLine` is the ghost
flag distinguishing the heading-line call site (see `SlideOrigin`). -/
def startNewSlide (st : ParseState) (rawTitle : Option Str) (fromHeadingLine : Bool) :
    ParseState :=
  let st' := finalizeCurrentSlide st
  let title := rawTitle.map trim
  let chosen : Str × SlideOrigin :=
    match title with
    | some t =>
      if t ≠ [] then
        (t, if fromHeadingLine then SlideOrigin.fromHeading else SlideOrigin.autoTitled)
      else (slideDefaultTitle (st'.slides.length + 1), SlideOrigin.autoTitled)
    | none => (slideDefaultTitle (st'.slides.length + 1), SlideOrigin.autoTitled)
  { st' with
    current := some
      ({ title := chosen.1, subtitle := none, blocks := [], notes := none,
         background := none }, chosen.2)
    codeBlock := none }

/-- `ensureSlide`: get-or-create the current slide (implicit creation uses
the `Slide ${n}` fallback title and is therefore auto-titled). -/
def ensureSlide (st : ParseState) : ParseState :=
  match st.current with
  | some _ => st
  | none => startNewSlide st (some (slideDefaultTitle (st.slides.length + 1))) false

/-- Apply a field update to the (ensured) current slide. -/
def modifyCurrent (st : ParseState) (f : SlideSpec → SlideSpec) : ParseState :=
  let st' := ensureSlide st
  { st' with current := st'.current.map (fun p => (f p.1, p.2)) }

/-- `appendBlock`. -/
def appendBlock (st : ParseState) (b : Block) : ParseState :=
  modifyCurrent st (fun sl => { sl with blocks := sl.blocks ++ [b] })

/-- `appendNote`: note text is the line with the `>note:` marker removed
(the replace only fires when the marker is at the start of the line passed
in, which is the right-trimmed line), trimmed; notes accumulate joined by a
newline. -/
def appendNote (st : ParseState) (line : Str) : ParseState :=
  let noteText := trim (if noteTest line then line.drop 6 else line)
  modifyCurrent st (fun sl =>
    { sl with notes := some (match sl.notes with
        | some old => old ++ '\n' :: noteText
        | none => noteText) })

/-- `updateBackground`: sets the background when the path is non-empty;
the current slide is ensured in either case. -/
def updateBackground (st : ParseState) (line : Str) : ParseState :=
  let backgroundPath := trim (if bgTest line then line.drop 4 else line)
  let st' := ensureSlide st
  if backgroundPath = [] then st'
  else
    { st' with current := (st'.current.map
        (fun p => ({ p.1 with background := some backgroundPath }, p.2))) }

/-- `appendCodeBlock`: flush an open code accumulator as a `code` block. -/
def appendCodeBlock (st : ParseState) : ParseState :=
  match st.codeBlock with
  | none => st
  | some cb =>
    let st' := appendBlock st (Block.code (joinNL cb.lines) cb.language)
    { st' with codeBlock := none }

/-! ## The parser main loop (`parseSlides`) -/

/-- One iteration of the `for` loop of `parseSlides`: classify the current
line (with the precedence order of the source), update the state, and
return it together with the lines still to be processed (the collectors for
tables, bullets and paragraphs consume a run of following lines). -/
def parseStep (rawLine : Str) (rest : List Str) (st : ParseState) :
    ParseState × List Str :=
  let trimmedRight := trimEnd rawLine
  let trimmed := trim trimmedRight
  match st.codeBlock with
  | some cb =>
    if isCodeFence trimmedRight then
      (appendCodeBlock st, rest)
    else
      ({ st with codeBlock := some ⟨cb.language, cb.lines ++ [rawLine]⟩ }, rest)
  | none =>
    if trimmed = [] then
      (st, rest)
    else if isCodeFence trimmedRight then
      let language := trim (trimmedRight.drop 3)
      ({ st with codeBlock := some ⟨if language = [] then none else some language, []⟩ }, rest)
    else if subtitleTest trimmed then
      (modifyCurrent st
        (fun sl => { sl with subtitle := some (trim (trimStart (trimmed.drop 2))) }), rest)
    else if headingTest trimmed then
      (startNewSlide st (some (trim (trimStart (trimmed.drop 1)))) true, rest)
    else if noteTest trimmed then
      (appendNote st trimmedRight, rest)
    else if bgTest trimmed then
      (updateBackground st trimmedRight, rest)
    else
      match imageMatchF rawLine with
      | some ap =>
        let ps := splitSizing ap.2
        (appendBlock st (Block.image (trim ap.1) (trim ps.1) ps.2), rest)
      | none =>
        if isTableLine trimmedRight then
          let tr := collectTable (rawLine :: rest)
          (appendBlock st (Block.table tr.1), tr.2)
        else
          match bulletMatchF rawLine with
          | some _ =>
            let br := collectBullets (rawLine :: rest)
            (appendBlock st (Block.bullets br.1), br.2)
          | none =>
            let pr := collectParaRest rest
            (appendBlock st (Block.paragraph (joinNL (trim rawLine :: pr.1))), pr.2)

/-- The `for` loop of `parseSlides`, one `parseStep` per iteration, with
fuel bounding the number of steps.  `parseSlides` supplies fuel equal to
the number of lines, which suffices because every step consumes at least
one line. -/
def parseLoop : Nat → List Str → ParseState → ParseState
  | 0, _, st => st
  | _ + 1, [], st => st
  | fuel + 1, rawLine :: rest, st =>
    let sr := parseStep rawLine rest st
    parseLoop fuel sr.2 sr.1

/-- `parseSlides`, with the ghost `SlideOrigin` annotation retained. -/
def parseSlidesAnn (rawText : Str) : List (SlideSpec × SlideOrigin) :=
  let lines := splitNL (normNL rawText)
  let st := parseLoop lines.length lines ⟨[], none, none⟩
  (finalizeCurrentSlide (appendCodeBlock st)).slides

/-- `parseSlides`: the slide records, annotations erased. -/
def parseSlides (rawText : Str) : List SlideSpec :=
  (parseSlidesAnn rawText).map Prod.fst

/-! ## Layout constants (exact rationals for the source's decimal numbers) -/

def SAFE_MARGIN_X : ℚ := 0.6
def BODY_TOP : ℚ := 1.6
def LINE_HEIGHT : ℚ := 0.35
def BULLET_LINE_HEIGHT : ℚ := 0.38
def CODE_LINE_HEIGHT : ℚ := 0.32
def MIN_BLOCK_HEIGHT : ℚ := 0.6
def BLOCK_GAP : ℚ := 0.2
def MAX_IMAGE_HEIGHT : ℚ := 3.5
def TABLE_ROW_HEIGHT : ℚ := 0.45
def TABLE_BASE_HEIGHT : ℚ := 0.6

/-! ## Renderer (the placement capability of `renderBlock` and friends) -/

structure RenderDimensions where
  x : ℚ
  y : ℚ
  width : ℚ
  availableHeight : ℚ
  safeBottom : ℚ
deriving DecidableEq, Repr

inductive RenderResult where
  | rendered (nextCursor : ℚ)
  | split (nextCursor : ℚ) (remainder : Block)
  | defer
deriving DecidableEq, Repr

/-- One drawing call made by a renderer: the fragment actually drawn and
the vertical position it was drawn at. -/
structure Placement where
  frag : Block
  y : ℚ
deriving DecidableEq, Repr

/-- `renderParagraph`: the render decision together with the drawing calls
it issues. -/
def renderParagraphR (text : Str) (dims : RenderDimensions) :
    RenderResult × List Placement :=
  let lines := splitNL text
  let neededHeight := max ((lines.length : ℚ) * LINE_HEIGHT) MIN_BLOCK_HEIGHT
  if neededHeight ≤ dims.availableHeight then
    (RenderResult.rendered (dims.y + neededHeight), [⟨Block.paragraph text, dims.y⟩])
  else if dims.availableHeight < MIN_BLOCK_HEIGHT then
    (RenderResult.defer, [])
  else
    let maxLines := (max (⌊dims.availableHeight / LINE_HEIGHT⌋ - 1) 1).toNat
    let head := joinNL (lines.take maxLines)
    let tail := joinNL (lines.drop maxLines)
    (RenderResult.split (dims.y + dims.availableHeight) (Block.paragraph (trimStart tail)),
      [⟨Block.paragraph head, dims.y⟩])

/-- `renderBullets`. -/
def renderBulletsR (items : List BulletItem) (dims : RenderDimensions) :
    RenderResult × List Placement :=
  if items.length = 0 then (RenderResult.rendered dims.y, [])
  else
    let neededHeight := max ((items.length : ℚ) * BULLET_LINE_HEIGHT) MIN_BLOCK_HEIGHT
    if neededHeight > dims.availableHeight ∧ dims.availableHeight < MIN_BLOCK_HEIGHT then
      (RenderResult.defer, [])
    else
      let maxItems :=
        if neededHeight ≤ dims.availableHeight then items.length
        else (max (⌊dims.availableHeight / BULLET_LINE_HEIGHT⌋ - 1) 1).toNat
      let drawn : List Placement := [⟨Block.bullets (items.take maxItems), dims.y⟩]
      if maxItems = items.length then
        (RenderResult.rendered (dims.y + min neededHeight dims.availableHeight), drawn)
      else
        (RenderResult.split (dims.y + dims.availableHeight)
          (Block.bullets (items.drop maxItems)), drawn)

/-- `renderImage`. -/
def renderImageR (alt path : Str) (sizing : Option Sizing) (dims : RenderDimensions) :
    RenderResult × List Placement :=
  let available := max dims.availableHeight 0
  if available < MIN_BLOCK_HEIGHT then (RenderResult.defer, [])
  else
    let height := max (min MAX_IMAGE_HEIGHT available) MIN_BLOCK_HEIGHT
    (RenderResult.rendered (dims.y + height), [⟨Block.image alt path sizing, dims.y⟩])

/-- `renderCode`. -/
def renderCodeR (text : Str) (language : Option Str) (dims : RenderDimensions) :
    RenderResult × List Placement :=
  let lines := splitNL text
  let neededHeight := max ((lines.length : ℚ) * CODE_LINE_HEIGHT + 0.2) MIN_BLOCK_HEIGHT
  if neededHeight > dims.availableHeight ∧ dims.availableHeight < MIN_BLOCK_HEIGHT then
    (RenderResult.defer, [])
  else
    let fits := neededHeight ≤ dims.availableHeight
    let lineLimit :=
      if fits then lines.length
      else (max (⌊(dims.availableHeight - 0.2) / CODE_LINE_HEIGHT⌋ - 1) 1).toNat
    let head := joinNL (lines.take lineLimit)
    let drawn : List Placement := [⟨Block.code head language, dims.y⟩]
    if fits then
      (RenderResult.rendered (dims.y + min neededHeight dims.availableHeight), drawn)
    else
      (RenderResult.split (dims.y + dims.availableHeight)
        (Block.code (trimStart (joinNL (lines.drop lineLimit))) language), drawn)

/-- `renderTable`. -/
def renderTableR (rows : List (List Str)) (dims : RenderDimensions) :
    RenderResult × List Placement :=
  let neededHeight :=
    max (TABLE_BASE_HEIGHT + (rows.length : ℚ) * TABLE_ROW_HEIGHT) MIN_BLOCK_HEIGHT
  if neededHeight > dims.availableHeight ∧ dims.availableHeight < MIN_BLOCK_HEIGHT then
    (RenderResult.defer, [])
  else
    let targetHeight := max (min neededHeight dims.availableHeight) MIN_BLOCK_HEIGHT
    (RenderResult.rendered (dims.y + targetHeight), [⟨Block.table rows, dims.y⟩])

/-- `renderBlock`: dispatch on the block kind. -/
def renderBlockR (b : Block) (dims : RenderDimensions) : RenderResult × List Placement :=
  match b with
  | Block.paragraph text => renderParagraphR text dims
  | Block.bullets items => renderBulletsR items dims
  | Block.image alt path sizing => renderImageR alt path sizing dims
  | Block.code text language => renderCodeR text language dims
  | Block.table rows => renderTableR rows dims

/-! ## Paginator (the per-slide block queue loop of `renderSlides`) -/

/-- One output page: title, the subtitle drawn on every page of the slide,
the notes attached to the first page only, and the block placements. -/
structure Page where
  title : Str
  subtitle : Option Str
  notes : Option Str
  placements : List Placement
deriving DecidableEq, Repr

/-- The inner `while (queue.length > 0)` placement loop of `renderSlides`:
peek the head block, render it at the cursor, and on `rendered` advance the
cursor by the block gap and continue unless the cursor reached the bottom
margin; `split` pushes the remainder on the front of the queue, `defer`
stops without consuming.  Returns the placements drawn on this page, the
remaining queue, the final cursor, and whether anything was consumed.
Fuel bounds the iterations; `queue.length + 1` always suffices because the
split branch always leaves the loop (its next cursor is the page bottom). -/
def fillPageF (sb sw : ℚ) : Nat → List Block → ℚ → Bool →
    Option (List Placement × List Block × ℚ × Bool)
  | _, [], cursor, consumed => some ([], [], cursor, consumed)
  | 0, _ :: _, _, _ => none
  | fuel + 1, b :: rest, cursor, _ =>
    let dims : RenderDimensions := ⟨SAFE_MARGIN_X, cursor, sw, sb - cursor, sb⟩
    match renderBlockR b dims with
    | (RenderResult.defer, _) => some ([], b :: rest, cursor, false)
    | (RenderResult.rendered nc, pls) =>
      let cursor' := nc + BLOCK_GAP
      if sb - BLOCK_GAP ≤ cursor' then some (pls, rest, cursor', true)
      else
        match fillPageF sb sw fuel rest cursor' true with
        | some r => some (pls ++ r.1, r.2.1, r.2.2.1, true)
        | none => none
    | (RenderResult.split nc rem, pls) =>
      let cursor' := nc + BLOCK_GAP
      if sb - BLOCK_GAP ≤ cursor' then some (pls, rem :: rest, cursor', true)
      else
        match fillPageF sb sw fuel (rem :: rest) cursor' true with
        | some r => some (pls ++ r.1, r.2.1, r.2.2.1, true)
        | none => none

/-- The outer `while (queue.length > 0 || firstSlide)` page loop of
`renderSlides` for one slide spec: emit pages until the queue is empty,
with the continuation title after the first page, and the forced placement
fallback when a page consumed nothing (if even the forced placement
defers, the loop breaks and the remaining queue is dropped).  `none` means
the fuel ran out with the loop still running. -/
def pagesLoopF (sb sw : ℚ) (spec : SlideSpec) :
    Nat → List Block → Nat → Bool → List Page → Option (List Page)
  | fuel, queue, seq, firstSlide, pages =>
    if queue = [] ∧ firstSlide = false then some pages
    else
      match fuel with
      | 0 => none
      | fuel + 1 =>
        let slideTitle := if seq = 0 then spec.title else spec.title ++ " (cont.)".data
        match fillPageF sb sw (queue.length + 1) queue BODY_TOP false with
        | none => none
        | some (pls, q', cursor, consumed) =>
          let pageNotes := if firstSlide then spec.notes else none
          if q' = [] then
            some (pages ++ [⟨slideTitle, spec.subtitle, pageNotes, pls⟩])
          else if consumed then
            pagesLoopF sb sw spec fuel q' (seq + 1) false
              (pages ++ [⟨slideTitle, spec.subtitle, pageNotes, pls⟩])
          else if cursor ≠ BODY_TOP then
            pagesLoopF sb sw spec fuel q' (seq + 1) false
              (pages ++ [⟨slideTitle, spec.subtitle, pageNotes, pls⟩])
          else
            match q' with
            | [] => some (pages ++ [⟨slideTitle, spec.subtitle, pageNotes, pls⟩])
            | b :: restq =>
              match renderBlockR b ⟨SAFE_MARGIN_X, cursor, sw, sb - cursor, sb⟩ with
              | (RenderResult.rendered _, fpls) =>
                pagesLoopF sb sw spec fuel restq (seq + 1) false
                  (pages ++ [⟨slideTitle, spec.subtitle, pageNotes, pls ++ fpls⟩])
              | (RenderResult.split _ rem, fpls) =>
                pagesLoopF sb sw spec fuel (rem :: restq) (seq + 1) false
                  (pages ++ [⟨slideTitle, spec.subtitle, pageNotes, pls ++ fpls⟩])
              | (RenderResult.defer, _) =>
                some (pages ++ [⟨slideTitle, spec.subtitle, pageNotes, pls⟩])

/-- Pagination of one slide spec (the body of the `specs.forEach` in
`renderSlides`), given the page geometry `safeBottom`/`safeWidth` and a
fuel bound on the number of page iterations. -/
def renderSlideSpecF (fuel : Nat) (sb sw : ℚ) (spec : SlideSpec) : Option (List Page) :=
  pagesLoopF sb sw spec fuel spec.blocks 0 true []

/-! ## Helpers for the claims about splitting -/

/-- Size of a block's splittable content: line count for paragraphs and
code, item count for bullets, `1` for the unsplittable kinds. -/
def blockSizeB : Block → Nat
  | Block.paragraph text => (splitNL text).length
  | Block.bullets items => items.length
  | Block.code text _ => (splitNL text).length
  | Block.image _ _ _ => 1
  | Block.table _ => 1

/-- Render dimensions with a given available height (the render decisions
depend only on `availableHeight`; `y` fixes the drawing position). -/
def mkDims (avail : ℚ) : RenderDimensions :=
  ⟨SAFE_MARGIN_X, BODY_TOP, 8, avail, BODY_TOP + avail⟩

/-- Repeatedly replace a block by its split remainder (at a fixed
available height), at most `fuel` times. -/
def splitIter : Nat → Block → ℚ → Block
  | 0, b, _ => b
  | fuel + 1, b, avail =>
    match (renderBlockR b (mkDims avail)).1 with
    | RenderResult.split _ rem => splitIter fuel rem avail
    | _ => b

/-- The texts of a full recursive split sequence of a paragraph, driven by
a list of available heights (one per page): the head text drawn at each
split step, followed by the final remainder text.  A `defer` skips to the
next page; a `rendered` ends the sequence. -/
def paraChain : List ℚ → Str → List Str
  | [], t => [t]
  | a :: restAv, t =>
    match renderParagraphR t (mkDims a) with
    | (RenderResult.split _ (Block.paragraph rem), [⟨Block.paragraph h, _⟩]) =>
      h :: paraChain restAv rem
    | (RenderResult.defer, _) => paraChain restAv t
    | _ => [t]

/-- Whether a render result is `rendered`. -/
def isRenderedB : RenderResult → Bool
  | RenderResult.rendered _ => true
  | _ => false

/-- A paragraph text in the form the parser produces: every line is
non-empty and carries no leading whitespace (the parser trims each line
before joining). -/
def paraNormal (t : Str) : Prop :=
  ∀ l ∈ splitNL t, l ≠ [] ∧ trimStart l = l

/-- What the parser guarantees of every block it appends: bullet items are
indent-clamped and paragraph texts are line-normalised. -/
def BlockGood (b : Block) : Prop :=
  (∀ items, b = Block.bullets items → ∀ it ∈ items, it.indentLevel ≤ MAX_INDENT_LEVEL) ∧
  (∀ t, b = Block.paragraph t → paraNormal t)

/-- The invariant of one parsed slide sitting at 0-based position `i` of
the output: non-empty title, the auto-generated title carries the slide's
1-based ordinal, and all its blocks are good. -/
def SlideGood (i : Nat) (p : SlideSpec × SlideOrigin) : Prop :=
  p.1.title ≠ [] ∧
  (p.2 = SlideOrigin.autoTitled → p.1.title = slideDefaultTitle (i + 1)) ∧
  (∀ b ∈ p.1.blocks, BlockGood b)

/-- The parser-state invariant: sealed slides are good at their positions,
and the open slide is good at the position it will be sealed into. -/
def InvSt (st : ParseState) : Prop :=
  (∀ i (h : i < st.slides.length), SlideGood i (st.slides.get ⟨i, h⟩)) ∧
  (∀ p, st.current = some p → SlideGood st.slides.length p)

/-- A parser state that is guaranteed to produce at least one slide once
flushed at end of input. -/
def pendingSt (st : ParseState) : Prop :=
  st.slides ≠ [] ∨ st.current.isSome ∨ st.codeBlock.isSome

/-! ## Lemmas about the string primitives -/

theorem splitOnChar_length (sep : Char) (s : Str) :
    (splitOnChar sep s).length = s.count sep + 1 := by
  induction s with
  | nil => simp [splitOnChar]
  | cons c rest ih =>
    cases hr : splitOnChar sep rest with
    | nil => rw [hr] at ih; simp at ih
    | cons h t =>
      rw [hr] at ih
      by_cases hc : c = sep
      · subst hc
        simp only [splitOnChar, hr, if_pos rfl]
        simp [List.count_cons] at ih ⊢
        omega
      · simp only [splitOnChar, hr, if_neg hc]
        simp [List.count_cons, Ne.symm hc] at ih ⊢
        omega

theorem splitOnChar_ne_nil (sep : Char) (s : Str) : splitOnChar sep s ≠ [] := by
  intro h
  have := splitOnChar_length sep s
  rw [h] at this
  simp at this

theorem splitNL_length_pos (s : Str) : 1 ≤ (splitNL s).length := by
  have := splitOnChar_length '\n' s
  simp [splitNL, this]

theorem not_mem_of_mem_splitOnChar (sep : Char) (s p : Str)
    (hp : p ∈ splitOnChar sep s) : sep ∉ p := by
  induction s generalizing p with
  | nil =>
    simp [splitOnChar] at hp
    subst hp; simp
  | cons c rest ih =>
    cases hr : splitOnChar sep rest with
    | nil => exact absurd hr (splitOnChar_ne_nil sep rest)
    | cons h t =>
      by_cases hc : c = sep
      · subst hc
        simp only [splitOnChar, hr, if_pos rfl] at hp
        rcases List.mem_cons.mp hp with h1 | h1
        · subst h1; simp
        · exact ih p (hr ▸ h1)
      · simp only [splitOnChar, hr, if_neg hc] at hp
        rcases List.mem_cons.mp hp with h1 | h1
        · subst h1
          intro hmem
          rcases List.mem_cons.mp hmem with h2 | h2
          · exact hc h2.symm
          · exact ih h (hr ▸ List.mem_cons_self h t) h2
        · exact ih p (hr ▸ List.mem_cons.mpr (Or.inr h1))

theorem joinNL_splitNL (s : Str) : joinNL (splitNL s) = s := by
  induction s with
  | nil => simp [splitNL, splitOnChar, joinNL]
  | cons c rest ih =>
    cases hr : splitOnChar '\n' rest with
    | nil => exact absurd hr (splitOnChar_ne_nil '\n' rest)
    | cons h t =>
      rw [splitNL, hr] at ih
      by_cases hc : c = '\n'
      · subst hc
        simp only [splitNL, splitOnChar, hr, if_pos rfl]
        cases t with
        | nil => simpa [joinNL] using ih
        | cons t0 ts => simpa [joinNL] using ih
      · simp only [splitNL, splitOnChar, hr, if_neg hc]
        cases t with
        | nil => simpa [joinNL] using congrArg (c :: ·) ih
        | cons t0 ts =>
          simp only [joinNL] at ih ⊢
          rw [List.cons_append, ih]

theorem splitOnChar_of_not_mem (sep : Char) (l : Str) (h : sep ∉ l) :
    splitOnChar sep l = [l] := by
  induction l with
  | nil => simp [splitOnChar]
  | cons c rest ih =>
    have hc : ¬ c = sep := fun hc => h (hc ▸ List.mem_cons_self c rest)
    have hrest : sep ∉ rest := fun hm => h (List.mem_cons.mpr (Or.inr hm))
    simp only [splitOnChar, ih hrest, if_neg hc]

theorem splitOnChar_append_sep (sep : Char) (l rest : Str) (h : sep ∉ l) :
    splitOnChar sep (l ++ sep :: rest) = l :: splitOnChar sep rest := by
  induction l with
  | nil =>
    cases hr : splitOnChar sep rest with
    | nil => exact absurd hr (splitOnChar_ne_nil sep rest)
    | cons h0 t0 => simp [splitOnChar, hr]
  | cons c l' ih =>
    have hc : ¬ c = sep := fun hc => h (hc ▸ List.mem_cons_self c l')
    have hl' : sep ∉ l' := fun hm => h (List.mem_cons.mpr (Or.inr hm))
    cases hr : splitOnChar sep (l' ++ sep :: rest) with
    | nil => exact absurd hr (splitOnChar_ne_nil sep _)
    | cons h0 t0 =>
      have heq := ih hl'
      simp only [List.cons_append, splitOnChar, List.append_eq, heq, if_neg hc]

theorem splitNL_joinNL (ls : List Str) (hnl : ∀ p ∈ ls, '\n' ∉ p) (hne : ls ≠ []) :
    splitNL (joinNL ls) = ls := by
  induction ls with
  | nil => exact absurd rfl hne
  | cons l ls' ih =>
    cases ls' with
    | nil =>
      simp only [joinNL, splitNL]
      exact splitOnChar_of_not_mem '\n' l (hnl l (List.mem_cons_self l []))
    | cons l2 ls'' =>
      have h1 : joinNL (l :: l2 :: ls'') = l ++ '\n' :: joinNL (l2 :: ls'') := rfl
      simp only [splitNL] at *
      rw [h1, splitOnChar_append_sep '\n' l _ (hnl l (List.mem_cons_self l _))]
      rw [ih (fun p hp => hnl p (List.mem_cons.mpr (Or.inr hp))) (by simp)]

theorem joinNL_append (a b : List Str) (ha : a ≠ []) (hb : b ≠ []) :
    joinNL (a ++ b) = joinNL a ++ '\n' :: joinNL b := by
  induction a with
  | nil => exact absurd rfl ha
  | cons x a' ih =>
    cases a' with
    | nil =>
      cases b with
      | nil => exact absurd rfl hb
      | cons y ys => simp [joinNL]
    | cons x2 a'' =>
      have h1 : joinNL ((x :: x2 :: a'') ++ b) = x ++ '\n' :: joinNL ((x2 :: a'') ++ b) := by
        cases b with
        | nil => exact absurd rfl hb
        | cons y ys => rfl
      rw [h1, ih (by simp)]
      simp [joinNL]

theorem joinNL_take_drop (ls : List Str) (k : Nat) (h1 : 1 ≤ k) (h2 : k < ls.length) :
    joinNL (ls.take k) ++ '\n' :: joinNL (ls.drop k) = joinNL ls := by
  have hta : ls.take k ≠ [] := by
    intro h
    have := congrArg List.length h
    simp [min_eq_left (le_of_lt h2)] at this
    omega
  have htb : ls.drop k ≠ [] := by
    intro h
    have := congrArg List.length h
    simp at this
    omega
  rw [← joinNL_append _ _ hta htb, List.take_append_drop]

theorem count_trimStart_le (c : Char) (s : Str) :
    (trimStart s).count c ≤ s.count c :=
  (List.dropWhile_sublist isWS).count_le c

theorem splitNL_trimStart_length_le (s : Str) :
    (splitNL (trimStart s)).length ≤ (splitNL s).length := by
  simp only [splitNL, splitOnChar_length]
  have := count_trimStart_le '\n' s
  omega

theorem trimStart_cons_of_not_ws (c : Char) (t : Str) (h : isWS c = false) :
    trimStart (c :: t) = c :: t := by
  simp [trimStart, List.dropWhile_cons, h]

theorem trimStart_trimStart (s : Str) : trimStart (trimStart s) = trimStart s := by
  induction s with
  | nil => rfl
  | cons c t ih =>
    by_cases h : isWS c
    · simpa [trimStart, List.dropWhile_cons, h] using ih
    · simp [trimStart, List.dropWhile_cons, h]

theorem trimStart_trim (s : Str) : trimStart (trim s) = trim s := by
  rw [trim, trimStart_trimStart]

theorem trimStart_of_trim_eq (s : Str) (h : trim s = s) : trimStart s = s := by
  conv at h in trim s => rw [← h]
  rw [← h, trimStart_trim, h]

end TxtPpt

namespace TxtPpt

/-! ## Lemmas: trimming, digits, default titles -/

theorem trimEnd_trimEnd (s : Str) : trimEnd (trimEnd s) = trimEnd s := by
  have h := trimStart_trimStart s.reverse
  simp only [trimStart] at h
  simp only [trimEnd, List.reverse_reverse, h]

theorem trim_trimEnd (s : Str) : trim (trimEnd s) = trim s := by
  rw [trim, trimEnd_trimEnd, trim]

theorem mem_of_mem_trimStart {c : Char} {s : Str} (h : c ∈ trimStart s) : c ∈ s :=
  (List.dropWhile_sublist isWS).subset h

theorem mem_of_mem_trimEnd {c : Char} {s : Str} (h : c ∈ trimEnd s) : c ∈ s := by
  rw [trimEnd, List.mem_reverse] at h
  exact List.mem_reverse.mp ((List.dropWhile_sublist isWS).subset h)

theorem mem_of_mem_trim {c : Char} {s : Str} (h : c ∈ trim s) : c ∈ s :=
  mem_of_mem_trimEnd (mem_of_mem_trimStart h)

theorem trimStart_head_not_ws (l : Str) (hne : l ≠ []) (h : trimStart l = l) :
    ∃ c t, l = c :: t ∧ isWS c = false := by
  cases l with
  | nil => exact absurd rfl hne
  | cons c t =>
    refine ⟨c, t, rfl, ?_⟩
    by_contra hcon
    have hw : isWS c = true := by
      cases hcw : isWS c
      · exact absurd hcw hcon
      · rfl
    rw [trimStart, List.dropWhile_cons, hw] at h
    simp only [if_true] at h
    have := congrArg List.length h
    have hle : (List.dropWhile isWS t).length ≤ t.length :=
      (List.dropWhile_sublist isWS).length_le
    simp at this
    omega

theorem isWS_of_isDigit (c : Char) (h : c.isDigit = true) : isWS c = false := by
  rw [Char.isDigit] at h
  simp only [Bool.and_eq_true, decide_eq_true_eq] at h
  rw [isWS]
  simp only [Bool.or_eq_false_iff, decide_eq_false_iff_not]
  refine ⟨⟨⟨⟨⟨?_, ?_⟩, ?_⟩, ?_⟩, ?_⟩, ?_⟩ <;>
    · rintro rfl
      revert h
      decide

theorem natStrCore_isDigit (fuel n : Nat) (c : Char) (h : c ∈ natStrCore fuel n) :
    c.isDigit = true := by
  induction fuel generalizing n with
  | zero => simp [natStrCore] at h
  | succ fuel ih =>
    rw [natStrCore] at h
    by_cases hn : n < 10
    · rw [if_pos hn] at h
      simp at h
      subst h
      interval_cases n <;> decide
    · rw [if_neg hn] at h
      rcases List.mem_append.mp h with h1 | h1
      · exact ih _ h1
      · simp at h1
        subst h1
        have : n % 10 < 10 := Nat.mod_lt _ (by norm_num)
        interval_cases hh : n % 10 <;> decide

theorem natStr_ne_nil (n : Nat) : natStr n ≠ [] := by
  rw [natStr, natStrCore]
  by_cases hn : n < 10
  · simp [hn]
  · simp [hn]

theorem slideDefaultTitle_ne_nil (n : Nat) : slideDefaultTitle n ≠ [] := by
  simp [slideDefaultTitle]

theorem trim_slideDefaultTitle (n : Nat) : trim (slideDefaultTitle n) = slideDefaultTitle n := by
  have hB : natStr n ≠ [] := natStr_ne_nil n
  have hEnd : trimEnd (slideDefaultTitle n) = slideDefaultTitle n := by
    rw [trimEnd]
    cases hrev : (slideDefaultTitle n).reverse with
    | nil =>
      rw [List.reverse_eq_nil_iff] at hrev
      exact absurd hrev (slideDefaultTitle_ne_nil n)
    | cons c t =>
      have hcd : isWS c = false := by
        cases hrevB : (natStr n).reverse with
        | nil => exact absurd (List.reverse_eq_nil_iff.mp hrevB) hB
        | cons b tb =>
          have hdec : (slideDefaultTitle n).reverse = b :: (tb ++ "Slide ".data.reverse) := by
            rw [slideDefaultTitle, List.reverse_append, hrevB, List.cons_append]
          rw [hrev] at hdec
          have hcb : c = b := ((List.cons.injEq _ _ _ _).mp hdec).1
          have hbB : b ∈ natStr n := by
            rw [← List.mem_reverse, hrevB]
            exact List.mem_cons_self b tb
          rw [hcb]
          exact isWS_of_isDigit b (natStrCore_isDigit _ _ b hbB)
      rw [List.dropWhile_cons, hcd]
      simp only [Bool.false_eq_true, if_false]
      rw [← hrev, List.reverse_reverse]
  rw [trim, hEnd, slideDefaultTitle]
  show trimStart ('S' :: ("lide ".data ++ natStr n)) = _
  rw [trimStart_cons_of_not_ws _ _ (by decide)]
  rfl

end TxtPpt

namespace TxtPpt

/-! ## Lemmas: collectors -/

theorem bulletItemOf_le (ws marker text : Str) :
    (bulletItemOf ws marker text).indentLevel ≤ MAX_INDENT_LEVEL :=
  min_le_right _ _

theorem collectBullets_level_le (ls : List Str) :
    ∀ it ∈ (collectBullets ls).1, it.indentLevel ≤ MAX_INDENT_LEVEL := by
  induction ls with
  | nil => simp [collectBullets]
  | cons l rest ih =>
    intro it hit
    rw [collectBullets] at hit
    cases hm : bulletMatchF l with
    | none => rw [hm] at hit; simp at hit
    | some m =>
      rw [hm] at hit
      simp only [List.mem_cons] at hit
      rcases hit with h1 | h1
      · rw [h1]; exact bulletItemOf_le _ _ _
      · exact ih it h1

theorem collectBullets_rest_sub (ls : List Str) :
    ∀ x ∈ (collectBullets ls).2, x ∈ ls := by
  induction ls with
  | nil => simp [collectBullets]
  | cons l rest ih =>
    intro x hx
    rw [collectBullets] at hx
    cases hm : bulletMatchF l with
    | none => rw [hm] at hx; exact hx
    | some m =>
      rw [hm] at hx
      exact List.mem_cons.mpr (Or.inr (ih x hx))

theorem collectTable_rest_sub (ls : List Str) :
    ∀ x ∈ (collectTable ls).2, x ∈ ls := by
  induction ls with
  | nil => simp [collectTable]
  | cons l rest ih =>
    intro x hx
    rw [collectTable] at hx
    by_cases ht : isTableLine l
    · rw [if_pos ht] at hx
      exact List.mem_cons.mpr (Or.inr (ih x hx))
    · rw [if_neg ht] at hx
      exact hx

theorem collectParaRest_mem_fst (ls : List Str) :
    ∀ x ∈ (collectParaRest ls).1, ∃ l ∈ ls, x = trim l ∧ trim l ≠ [] := by
  induction ls with
  | nil => simp [collectParaRest]
  | cons l rest ih =>
    intro x hx
    rw [collectParaRest] at hx
    by_cases hc : trim l ≠ [] && !isBlockBoundary l
    · rw [if_pos hc] at hx
      simp only [List.mem_cons] at hx
      rcases hx with h1 | h1
      · refine ⟨l, List.mem_cons_self l rest, h1, ?_⟩
        simpa using (Bool.and_eq_true _ _ |>.mp hc).1
      · obtain ⟨l', hl', hx', hne⟩ := ih x h1
        exact ⟨l', List.mem_cons.mpr (Or.inr hl'), hx', hne⟩
    · rw [if_neg hc] at hx
      simp at hx

theorem collectParaRest_rest_sub (ls : List Str) :
    ∀ x ∈ (collectParaRest ls).2, x ∈ ls := by
  induction ls with
  | nil => simp [collectParaRest]
  | cons l rest ih =>
    intro x hx
    rw [collectParaRest] at hx
    by_cases hc : trim l ≠ [] && !isBlockBoundary l
    · rw [if_pos hc] at hx
      exact List.mem_cons.mpr (Or.inr (ih x hx))
    · rw [if_neg hc] at hx
      exact hx

/-- A paragraph built by the parser from individually trimmed, non-blank,
newline-free lines is normalised. -/
theorem paraNormal_joinNL (ls : List Str) (hne : ls ≠ [])
    (h : ∀ l ∈ ls, l ≠ [] ∧ trimStart l = l ∧ '\n' ∉ l) :
    paraNormal (joinNL ls) := by
  intro l hl
  rw [splitNL_joinNL ls (fun p hp => (h p hp).2.2) hne] at hl
  exact ⟨(h l hl).1, (h l hl).2.1⟩

/-- The text the paragraph branch of the parser appends is normalised. -/
theorem paraNormal_branch (rawLine : Str) (rest : List Str)
    (hraw : trim (trimEnd rawLine) ≠ []) (hnl : '\n' ∉ rawLine)
    (hrest : ∀ l ∈ rest, '\n' ∉ l) :
    paraNormal (joinNL (trim rawLine :: (collectParaRest rest).1)) := by
  apply paraNormal_joinNL _ (by simp)
  intro l hl
  rcases List.mem_cons.mp hl with h1 | h1
  · subst h1
    refine ⟨?_, trimStart_trim rawLine, fun hm => hnl (mem_of_mem_trim hm)⟩
    rwa [trim_trimEnd] at hraw
  · obtain ⟨l', hl', heq, hne⟩ := collectParaRest_mem_fst rest l h1
    subst heq
    exact ⟨hne, trimStart_trim l', fun hm => hrest l' hl' (mem_of_mem_trim hm)⟩

/-! ## Lemmas: parser state operations preserve the invariant -/

theorem InvSt_finalize {st : ParseState} (h : InvSt st) :
    InvSt (finalizeCurrentSlide st) := by
  obtain ⟨hs, hc⟩ := h
  cases hcur : st.current with
  | none => simpa only [finalizeCurrentSlide, hcur] using ⟨hs, hc⟩
  | some p =>
    simp only [finalizeCurrentSlide, hcur]
    constructor
    · intro i hi
      by_cases hlt : i < st.slides.length
      · have hget : (st.slides ++ [p]).get ⟨i, hi⟩ = st.slides.get ⟨i, hlt⟩ := by
          rw [List.get_eq_getElem, List.get_eq_getElem, List.getElem_append_left hlt]
        rw [hget]
        exact hs i hlt
      · have hieq : i = st.slides.length := by
          simp only [List.length_append, List.length_cons, List.length_nil] at hi
          omega
        subst hieq
        have hget : (st.slides ++ [p]).get ⟨st.slides.length, hi⟩ = p := by
          rw [List.get_eq_getElem, List.getElem_append_right (le_refl _)]
          simp
        rw [hget]
        exact hc p hcur
    · intro q hq
      simp at hq

theorem BlockGood_code (text : Str) (lang : Option Str) : BlockGood (Block.code text lang) :=
  ⟨(fun _ h => nomatch h), (fun _ h => nomatch h)⟩

theorem BlockGood_image (alt path : Str) (sz : Option Sizing) :
    BlockGood (Block.image alt path sz) :=
  ⟨(fun _ h => nomatch h), (fun _ h => nomatch h)⟩

theorem BlockGood_table (rows : List (List Str)) : BlockGood (Block.table rows) :=
  ⟨(fun _ h => nomatch h), (fun _ h => nomatch h)⟩

theorem SlideGood_blocks_append {i : Nat} {p : SlideSpec × SlideOrigin} {b : Block}
    (h : SlideGood i p) (hb : BlockGood b) :
    SlideGood i ({ p.1 with blocks := p.1.blocks ++ [b] }, p.2) := by
  obtain ⟨h1, h2, h3⟩ := h
  refine ⟨h1, h2, ?_⟩
  intro b' hb'
  rcases List.mem_append.mp hb' with hm | hm
  · exact h3 b' hm
  · simp at hm
    subst hm
    exact hb

theorem InvSt_startNewSlide {st : ParseState} (h : InvSt st) (rawTitle : Str)
    (flag : Bool)
    (hauto : flag = false →
      rawTitle = slideDefaultTitle ((finalizeCurrentSlide st).slides.length + 1)) :
    InvSt (startNewSlide st (some rawTitle) flag) := by
  have hfin := InvSt_finalize h
  refine ⟨fun i hi => hfin.1 i hi, ?_⟩
  intro p hp
  by_cases ht : trim rawTitle = []
  · have hcur : (startNewSlide st (some rawTitle) flag).current =
        some (⟨slideDefaultTitle ((finalizeCurrentSlide st).slides.length + 1),
          none, [], none, none⟩, SlideOrigin.autoTitled) := by
      simp only [startNewSlide, Option.map_some']
      rw [if_neg (by simpa using ht)]
    rw [hcur] at hp
    cases hp
    exact ⟨slideDefaultTitle_ne_nil _, fun _ => rfl, by simp⟩
  · cases flag with
    | true =>
      have hcur : (startNewSlide st (some rawTitle) true).current =
          some (⟨trim rawTitle, none, [], none, none⟩, SlideOrigin.fromHeading) := by
        simp only [startNewSlide, Option.map_some']
        rw [if_pos (by simpa using ht)]
        simp
      rw [hcur] at hp
      cases hp
      exact ⟨ht, (fun hcon => nomatch hcon), by simp⟩
    | false =>
      have hdef := hauto rfl
      have hcur : (startNewSlide st (some rawTitle) false).current =
          some (⟨trim rawTitle, none, [], none, none⟩, SlideOrigin.autoTitled) := by
        simp only [startNewSlide, Option.map_some']
        rw [if_pos (by simpa using ht)]
        simp
      rw [hcur] at hp
      cases hp
      refine ⟨ht, fun _ => ?_, by simp⟩
      rw [hdef, trim_slideDefaultTitle]
      rfl

theorem InvSt_ensureSlide {st : ParseState} (h : InvSt st) : InvSt (ensureSlide st) := by
  cases hcur : st.current with
  | some p =>
    simpa only [ensureSlide, hcur] using h
  | none =>
    simp only [ensureSlide, hcur]
    apply InvSt_startNewSlide h _ false
    intro
    simp only [finalizeCurrentSlide, hcur]

theorem ensureSlide_isSome (st : ParseState) : (ensureSlide st).current.isSome := by
  cases hcur : st.current with
  | some p => simp [ensureSlide, hcur]
  | none => simp [ensureSlide, hcur, startNewSlide]

theorem InvSt_modifyCurrent {st : ParseState} (h : InvSt st) (f : SlideSpec → SlideSpec)
    (hf : ∀ sl, (f sl).title = sl.title ∧ (f sl).blocks = sl.blocks) :
    InvSt (modifyCurrent st f) := by
  have he := InvSt_ensureSlide h
  rw [modifyCurrent]
  refine ⟨he.1, ?_⟩
  intro p hp
  simp only [Option.map_eq_some'] at hp
  obtain ⟨q, hq, hpq⟩ := hp
  have hg := he.2 q hq
  subst hpq
  obtain ⟨h1, h2, h3⟩ := hg
  refine ⟨?_, ?_, ?_⟩
  · rw [(hf q.1).1]; exact h1
  · intro ho
    rw [(hf q.1).1]; exact h2 ho
  · intro b hb
    rw [(hf q.1).2] at hb
    exact h3 b hb

theorem InvSt_appendBlock {st : ParseState} (h : InvSt st) (b : Block) (hb : BlockGood b) :
    InvSt (appendBlock st b) := by
  have he := InvSt_ensureSlide h
  rw [appendBlock, modifyCurrent]
  refine ⟨he.1, ?_⟩
  intro p hp
  simp only [Option.map_eq_some'] at hp
  obtain ⟨q, hq, hpq⟩ := hp
  subst hpq
  exact SlideGood_blocks_append (he.2 q hq) hb

theorem InvSt_appendNote {st : ParseState} (h : InvSt st) (line : Str) :
    InvSt (appendNote st line) :=
  InvSt_modifyCurrent h _ (fun _ => ⟨rfl, rfl⟩)

theorem InvSt_updateBackground {st : ParseState} (h : InvSt st) (line : Str) :
    InvSt (updateBackground st line) := by
  have he := InvSt_ensureSlide h
  rw [updateBackground]
  by_cases hb : trim (if bgTest line then line.drop 4 else line) = []
  · simpa only [hb, if_true] using he
  · simp only [hb, if_false]
    refine ⟨he.1, ?_⟩
    intro p hp
    simp only [Option.map_eq_some'] at hp
    obtain ⟨q, hq, hpq⟩ := hp
    subst hpq
    exact he.2 q hq

theorem InvSt_appendCodeBlock {st : ParseState} (h : InvSt st) :
    InvSt (appendCodeBlock st) := by
  cases hcb : st.codeBlock with
  | none => simpa only [appendCodeBlock, hcb] using h
  | some cb =>
    simp only [appendCodeBlock, hcb]
    have ha := InvSt_appendBlock h _ (BlockGood_code (joinNL cb.lines) cb.language)
    exact ⟨ha.1, ha.2⟩


/-- Every state produced by one parser step satisfies the invariant, and
the lines it leaves to process come from the lines it was given. -/
theorem parseStep_inv (rawLine : Str) (rest : List Str) (st : ParseState)
    (h : InvSt st) (hnl : '\n' ∉ rawLine) (hrest : ∀ l ∈ rest, '\n' ∉ l) :
    InvSt (parseStep rawLine rest st).1 ∧
    ∀ l ∈ (parseStep rawLine rest st).2, l ∈ rest := by
  rw [parseStep]
  cases hcb : st.codeBlock with
  | some cb =>
    by_cases hf : isCodeFence (trimEnd rawLine)
    · simp only [hf, if_true]
      exact ⟨InvSt_appendCodeBlock h, fun l hl => hl⟩
    · simp only [hf, if_false]
      exact ⟨⟨h.1, h.2⟩, fun l hl => hl⟩
  | none =>
    by_cases hblank : trim (trimEnd rawLine) = []
    · simp only [hblank, if_pos rfl]
      exact ⟨h, fun l hl => hl⟩
    rw [if_neg hblank]
    by_cases hf : isCodeFence (trimEnd rawLine)
    · simp only [hf, if_true]
      exact ⟨⟨h.1, h.2⟩, fun l hl => hl⟩
    rw [if_neg hf]
    by_cases hsub : subtitleTest (trim (trimEnd rawLine))
    · simp only [hsub, if_true]
      exact ⟨InvSt_modifyCurrent h _ (fun _ => ⟨rfl, rfl⟩), fun l hl => hl⟩
    rw [if_neg hsub]
    by_cases hhead : headingTest (trim (trimEnd rawLine))
    · simp only [hhead, if_true]
      exact ⟨InvSt_startNewSlide h _ true (fun hcon => nomatch hcon), fun l hl => hl⟩
    rw [if_neg hhead]
    by_cases hnote : noteTest (trim (trimEnd rawLine))
    · simp only [hnote, if_true]
      exact ⟨InvSt_appendNote h _, fun l hl => hl⟩
    rw [if_neg hnote]
    by_cases hbg : bgTest (trim (trimEnd rawLine))
    · simp only [hbg, if_true]
      exact ⟨InvSt_updateBackground h _, fun l hl => hl⟩
    rw [if_neg hbg]
    cases him : imageMatchF rawLine with
    | some ap =>
      exact ⟨InvSt_appendBlock h _ (BlockGood_image _ _ _), fun l hl => hl⟩
    | none =>
      by_cases htab : isTableLine (trimEnd rawLine)
      · simp only [htab, if_true]
        refine ⟨InvSt_appendBlock h _ (BlockGood_table _), ?_⟩
        intro l hl
        have hmem := collectTable_rest_sub (rawLine :: rest) l hl
        have hcons : isTableLine rawLine = true := by
          have : trim (trimEnd rawLine) = trim rawLine := trim_trimEnd rawLine
          rw [isTableLine] at htab ⊢
          rw [this] at htab
          exact htab
        rw [collectTable] at hl
        rw [if_pos hcons] at hl
        exact collectTable_rest_sub rest l hl
      rw [if_neg htab]
      cases hbul : bulletMatchF rawLine with
      | some m =>
        refine ⟨InvSt_appendBlock h _ ?_, ?_⟩
        · refine ⟨?_, (fun _ hcon => nomatch hcon)⟩
          rintro items hitems it hit
          cases hitems
          exact collectBullets_level_le _ it hit
        · intro l hl
          rw [collectBullets, hbul] at hl
          exact collectBullets_rest_sub rest l hl
      | none =>
        refine ⟨InvSt_appendBlock h _ ?_, ?_⟩
        · refine ⟨(fun _ hcon => nomatch hcon), ?_⟩
          rintro t ht
          cases ht
          exact paraNormal_branch rawLine rest hblank hnl hrest
        · exact collectParaRest_rest_sub rest


end TxtPpt

namespace TxtPpt

/-- The parser loop preserves the state invariant. -/
theorem parseLoop_inv (fuel : Nat) :
    ∀ (ls : List Str) (st : ParseState), InvSt st → (∀ l ∈ ls, '\n' ∉ l) →
    InvSt (parseLoop fuel ls st) := by
  induction fuel with
  | zero => intro ls st h _; exact h
  | succ fuel ih =>
    intro ls st h hls
    cases ls with
    | nil => exact h
    | cons rawLine rest =>
      rw [parseLoop]
      obtain ⟨h1, h2⟩ := parseStep_inv rawLine rest st h
        (hls rawLine (List.mem_cons_self _ _))
        (fun l hl => hls l (List.mem_cons.mpr (Or.inr hl)))
      exact ih _ _ h1 (fun l hl => hls l (List.mem_cons.mpr (Or.inr (h2 l hl))))

/-- Lines produced by splitting the normalized input contain no newline. -/
theorem splitNL_no_newline (s : Str) : ∀ l ∈ splitNL s, '\n' ∉ l :=
  fun l hl => not_mem_of_mem_splitOnChar '\n' s l hl

/-- Master parser theorem: every slide of the annotated output is good at
its position. -/
theorem parseSlidesAnn_good (rawText : Str) :
    ∀ i (h : i < (parseSlidesAnn rawText).length),
      SlideGood i ((parseSlidesAnn rawText).get ⟨i, h⟩) := by
  have h0 : InvSt ⟨[], none, none⟩ := by
    constructor
    · intro i hi
      simp at hi
    · intro p hp
      simp at hp
  have hloop := parseLoop_inv (splitNL (normNL rawText)).length (splitNL (normNL rawText))
    ⟨[], none, none⟩ h0 (splitNL_no_newline (normNL rawText))
  have hfin := InvSt_finalize (InvSt_appendCodeBlock hloop)
  intro i hi
  exact hfin.1 i hi

theorem joinNL_cons (s : Str) (rest : List Str) (h : rest ≠ []) :
    joinNL (s :: rest) = s ++ '\n' :: joinNL rest := by
  cases rest with
  | nil => exact absurd rfl h
  | cons r rs => rfl

theorem paraChain_ne_nil (avails : List ℚ) (t : Str) : paraChain avails t ≠ [] := by
  induction avails generalizing t with
  | nil => simp [paraChain]
  | cons a rest ih =>
    rw [paraChain]
    split
    · simp
    · exact ih t
    · simp

theorem trimStart_joinNL_head (l0 : Str) (tl : List Str) (h0 : l0 ≠ [])
    (hh : trimStart l0 = l0) :
    trimStart (joinNL (l0 :: tl)) = joinNL (l0 :: tl) := by
  obtain ⟨c, t', heq, hc⟩ := trimStart_head_not_ws l0 h0 hh
  subst heq
  cases tl with
  | nil => exact trimStart_cons_of_not_ws c t' hc
  | cons x xs =>
    rw [joinNL_cons _ _ (by simp), List.cons_append]
    exact trimStart_cons_of_not_ws c _ hc

/-- The full recursive split sequence of a normalised paragraph is
lossless: joining all drawn heads and the final remainder with newlines
reproduces the text exactly. -/
theorem paraChain_join (avails : List ℚ) (t : Str) (hnorm : paraNormal t) :
    joinNL (paraChain avails t) = t := by
  induction avails generalizing t with
  | nil => simp [paraChain, joinNL]
  | cons a rest ih =>
    by_cases hfit : max (((splitNL t).length : ℚ) * LINE_HEIGHT) MIN_BLOCK_HEIGHT ≤
        (mkDims a).availableHeight
    · have hr : renderParagraphR t (mkDims a) =
          (RenderResult.rendered ((mkDims a).y +
            max (((splitNL t).length : ℚ) * LINE_HEIGHT) MIN_BLOCK_HEIGHT),
           [⟨Block.paragraph t, (mkDims a).y⟩]) := by
        simp [renderParagraphR, hfit]
      rw [paraChain, hr]
      simp [joinNL]
    by_cases hmin : (mkDims a).availableHeight < MIN_BLOCK_HEIGHT
    · have hr : renderParagraphR t (mkDims a) = (RenderResult.defer, []) := by
        simp [renderParagraphR, hfit, hmin]
      rw [paraChain, hr]
      exact ih t hnorm
    -- split branch
    have hsplit : renderParagraphR t (mkDims a) =
        (RenderResult.split ((mkDims a).y + (mkDims a).availableHeight)
          (Block.paragraph (trimStart (joinNL ((splitNL t).drop
            ((max (⌊(mkDims a).availableHeight / LINE_HEIGHT⌋ - 1) 1).toNat))))),
         [⟨Block.paragraph (joinNL ((splitNL t).take
            ((max (⌊(mkDims a).availableHeight / LINE_HEIGHT⌋ - 1) 1).toNat))), (mkDims a).y⟩]) := by
      simp [renderParagraphR, hfit, hmin]
    set n := (splitNL t).length with hn
    set A := (mkDims a).availableHeight with hA
    have hAmin : MIN_BLOCK_HEIGHT ≤ A := not_lt.mp hmin
    have hlt : A < max ((n : ℚ) * LINE_HEIGHT) MIN_BLOCK_HEIGHT := not_le.mp hfit
    have hgt : MIN_BLOCK_HEIGHT < (n : ℚ) * LINE_HEIGHT := by
      by_contra hle
      rw [max_eq_right (not_lt.mp hle)] at hlt
      linarith
    have hn2 : 2 ≤ n := by
      by_contra hle
      push_neg at hle
      interval_cases n <;> norm_num [LINE_HEIGHT, MIN_BLOCK_HEIGHT] at hgt
    have hlt2 : A < (n : ℚ) * LINE_HEIGHT := by
      rwa [max_eq_left (le_of_lt hgt)] at hlt
    have hfl : ⌊A / LINE_HEIGHT⌋ < (n : ℤ) := by
      rw [Int.floor_lt]
      rw [div_lt_iff₀ (by norm_num [LINE_HEIGHT])]
      push_cast
      linarith
    set k := (max (⌊A / LINE_HEIGHT⌋ - 1) 1).toNat with hk
    have hk1 : 1 ≤ k ∧ k ≤ n - 1 := by
      rcases le_total (⌊A / LINE_HEIGHT⌋ - 1) 1 with hm | hm
      · rw [hk, max_eq_right hm]; omega
      · rw [hk, max_eq_left hm]; omega
    have hdropne : (splitNL t).drop k ≠ [] := by
      intro hcon
      have := congrArg List.length hcon
      simp at this
      omega
    have hdropmem : ∀ p ∈ (splitNL t).drop k, '\n' ∉ p := fun p hp =>
      not_mem_of_mem_splitOnChar '\n' t p (List.mem_of_mem_drop hp)
    -- the remainder needs no start-trimming and stays normalised
    obtain ⟨l0, tl, hdropeq⟩ : ∃ l0 tl, (splitNL t).drop k = l0 :: tl := by
      cases hd : (splitNL t).drop k with
      | nil => exact absurd hd hdropne
      | cons x xs => exact ⟨x, xs, rfl⟩
    have hl0 : l0 ∈ splitNL t := List.mem_of_mem_drop (hdropeq ▸ List.mem_cons_self l0 tl)
    have hl0n := hnorm l0 hl0
    have hts : trimStart (joinNL ((splitNL t).drop k)) = joinNL ((splitNL t).drop k) := by
      rw [hdropeq]
      exact trimStart_joinNL_head l0 tl hl0n.1 hl0n.2
    have hremnorm : paraNormal (joinNL ((splitNL t).drop k)) := by
      intro l hl
      rw [splitNL_joinNL _ hdropmem hdropne] at hl
      exact hnorm l (List.mem_of_mem_drop hl)
    rw [paraChain, hsplit]
    rw [joinNL_cons _ _ (paraChain_ne_nil _ _)]
    rw [hts] at *
    rw [ih _ hremnorm]
    rw [joinNL_take_drop (splitNL t) k hk1.1 (by omega)]
    exact joinNL_splitNL t



theorem renderParagraphR_split (text : Str) (dims : RenderDimensions) (nc : ℚ) (rem : Block)
    (h : (renderParagraphR text dims).1 = RenderResult.split nc rem) :
    blockSizeB rem < blockSizeB (Block.paragraph text) ∧
    ∃ pl, (renderParagraphR text dims).2 = [pl] ∧ 1 ≤ blockSizeB pl.frag := by
  by_cases hfit : max (((splitNL text).length : ℚ) * LINE_HEIGHT) MIN_BLOCK_HEIGHT ≤
      dims.availableHeight
  · simp [renderParagraphR, hfit] at h
  by_cases hmin : dims.availableHeight < MIN_BLOCK_HEIGHT
  · simp [renderParagraphR, hfit, hmin] at h
  have hsplit : (renderParagraphR text dims) =
      (RenderResult.split (dims.y + dims.availableHeight)
        (Block.paragraph (trimStart (joinNL ((splitNL text).drop
          ((max (⌊dims.availableHeight / LINE_HEIGHT⌋ - 1) 1).toNat))))),
       [⟨Block.paragraph (joinNL ((splitNL text).take
          ((max (⌊dims.availableHeight / LINE_HEIGHT⌋ - 1) 1).toNat))), dims.y⟩]) := by
    simp [renderParagraphR, hfit, hmin]
  set n := (splitNL text).length with hn
  set A := dims.availableHeight with hA
  have hAmin : MIN_BLOCK_HEIGHT ≤ A := not_lt.mp hmin
  have hlt : A < max ((n : ℚ) * LINE_HEIGHT) MIN_BLOCK_HEIGHT := not_le.mp hfit
  have hgt : MIN_BLOCK_HEIGHT < (n : ℚ) * LINE_HEIGHT := by
    by_contra hle
    rw [max_eq_right (not_lt.mp hle)] at hlt
    linarith
  have hn2 : 2 ≤ n := by
    by_contra hle
    push_neg at hle
    interval_cases n <;> norm_num [LINE_HEIGHT, MIN_BLOCK_HEIGHT] at hgt
  have hlt2 : A < (n : ℚ) * LINE_HEIGHT := by
    rwa [max_eq_left (le_of_lt hgt)] at hlt
  have hfl : ⌊A / LINE_HEIGHT⌋ < (n : ℤ) := by
    rw [Int.floor_lt]
    rw [div_lt_iff₀ (by norm_num [LINE_HEIGHT])]
    push_cast
    linarith
  set k := (max (⌊A / LINE_HEIGHT⌋ - 1) 1).toNat with hk
  have hk1 : 1 ≤ k ∧ k ≤ n - 1 := by
    rcases le_total (⌊A / LINE_HEIGHT⌋ - 1) 1 with hm | hm
    · rw [hk, max_eq_right hm]; omega
    · rw [hk, max_eq_left hm]; omega
  have hdropmem : ∀ p ∈ (splitNL text).drop k, '\n' ∉ p := fun p hp =>
    not_mem_of_mem_splitOnChar '\n' text p (List.mem_of_mem_drop hp)
  have hdropne : (splitNL text).drop k ≠ [] := by
    intro hcon
    have := congrArg List.length hcon
    simp at this
    omega
  have hremsize : (splitNL (trimStart (joinNL ((splitNL text).drop k)))).length < n := by
    calc (splitNL (trimStart (joinNL ((splitNL text).drop k)))).length
        ≤ (splitNL (joinNL ((splitNL text).drop k))).length :=
          splitNL_trimStart_length_le _
      _ = ((splitNL text).drop k).length := by rw [splitNL_joinNL _ hdropmem hdropne]
      _ < n := by simp; omega
  constructor
  · have heq := congrArg Prod.fst hsplit
    rw [h] at heq
    rw [((RenderResult.split.injEq _ _ _ _).mp heq).2]
    simpa [blockSizeB] using hremsize
  · refine ⟨_, congrArg Prod.snd hsplit, ?_⟩
    simpa [blockSizeB] using splitNL_length_pos _

theorem renderCodeR_split (text : Str) (lang : Option Str) (dims : RenderDimensions)
    (nc : ℚ) (rem : Block)
    (h : (renderCodeR text lang dims).1 = RenderResult.split nc rem) :
    blockSizeB rem < blockSizeB (Block.code text lang) ∧
    ∃ pl, (renderCodeR text lang dims).2 = [pl] ∧ 1 ≤ blockSizeB pl.frag := by
  by_cases hdef : max (((splitNL text).length : ℚ) * CODE_LINE_HEIGHT + 0.2) MIN_BLOCK_HEIGHT >
      dims.availableHeight ∧ dims.availableHeight < MIN_BLOCK_HEIGHT
  · simp [renderCodeR, hdef.2] at h
  by_cases hfit : max (((splitNL text).length : ℚ) * CODE_LINE_HEIGHT + 0.2) MIN_BLOCK_HEIGHT ≤
      dims.availableHeight
  · have hAmin : MIN_BLOCK_HEIGHT ≤ dims.availableHeight :=
      le_trans (le_max_right _ _) hfit
    simp [renderCodeR, hfit, not_lt.mpr hAmin] at h
  have hlt : dims.availableHeight <
      max (((splitNL text).length : ℚ) * CODE_LINE_HEIGHT + 0.2) MIN_BLOCK_HEIGHT :=
    not_le.mp hfit
  have hAmin : MIN_BLOCK_HEIGHT ≤ dims.availableHeight := by
    by_contra hcon
    exact hdef ⟨hlt, not_le.mp hcon⟩
  have hsplit : (renderCodeR text lang dims) =
      (RenderResult.split (dims.y + dims.availableHeight)
        (Block.code (trimStart (joinNL ((splitNL text).drop
          ((max (⌊(dims.availableHeight - 0.2) / CODE_LINE_HEIGHT⌋ - 1) 1).toNat)))) lang),
       [⟨Block.code (joinNL ((splitNL text).take
          ((max (⌊(dims.availableHeight - 0.2) / CODE_LINE_HEIGHT⌋ - 1) 1).toNat))) lang,
         dims.y⟩]) := by
    simp [renderCodeR, hfit, not_lt.mpr hAmin]
  set n := (splitNL text).length with hn
  set A := dims.availableHeight with hA
  have hgt : MIN_BLOCK_HEIGHT < (n : ℚ) * CODE_LINE_HEIGHT + 0.2 := by
    by_contra hle
    rw [max_eq_right (not_lt.mp hle)] at hlt
    linarith
  have hn2 : 2 ≤ n := by
    by_contra hle
    push_neg at hle
    interval_cases n <;> norm_num [CODE_LINE_HEIGHT, MIN_BLOCK_HEIGHT] at hgt
  have hlt2 : A < (n : ℚ) * CODE_LINE_HEIGHT + 0.2 := by
    rwa [max_eq_left (le_of_lt hgt)] at hlt
  have hfl : ⌊(A - 0.2) / CODE_LINE_HEIGHT⌋ < (n : ℤ) := by
    rw [Int.floor_lt]
    rw [div_lt_iff₀ (by norm_num [CODE_LINE_HEIGHT])]
    push_cast
    linarith
  set k := (max (⌊(A - 0.2) / CODE_LINE_HEIGHT⌋ - 1) 1).toNat with hk
  have hk1 : 1 ≤ k ∧ k ≤ n - 1 := by
    rcases le_total (⌊(A - 0.2) / CODE_LINE_HEIGHT⌋ - 1) 1 with hm | hm
    · rw [hk, max_eq_right hm]; omega
    · rw [hk, max_eq_left hm]; omega
  have hdropmem : ∀ p ∈ (splitNL text).drop k, '\n' ∉ p := fun p hp =>
    not_mem_of_mem_splitOnChar '\n' text p (List.mem_of_mem_drop hp)
  have hdropne : (splitNL text).drop k ≠ [] := by
    intro hcon
    have := congrArg List.length hcon
    simp at this
    omega
  have hremsize : (splitNL (trimStart (joinNL ((splitNL text).drop k)))).length < n := by
    calc (splitNL (trimStart (joinNL ((splitNL text).drop k)))).length
        ≤ (splitNL (joinNL ((splitNL text).drop k))).length :=
          splitNL_trimStart_length_le _
      _ = ((splitNL text).drop k).length := by rw [splitNL_joinNL _ hdropmem hdropne]
      _ < n := by simp; omega
  constructor
  · have heq := congrArg Prod.fst hsplit
    rw [h] at heq
    rw [((RenderResult.split.injEq _ _ _ _).mp heq).2]
    simpa [blockSizeB] using hremsize
  · refine ⟨_, congrArg Prod.snd hsplit, ?_⟩
    simpa [blockSizeB] using splitNL_length_pos _

theorem renderBulletsR_split (items : List BulletItem) (dims : RenderDimensions)
    (nc : ℚ) (rem : Block)
    (h : (renderBulletsR items dims).1 = RenderResult.split nc rem) :
    blockSizeB rem < blockSizeB (Block.bullets items) ∧
    ∃ pl, (renderBulletsR items dims).2 = [pl] ∧ 1 ≤ blockSizeB pl.frag := by
  by_cases hne : items.length = 0
  · simp [renderBulletsR, hne] at h
  by_cases hdef : max ((items.length : ℚ) * BULLET_LINE_HEIGHT) MIN_BLOCK_HEIGHT >
      dims.availableHeight ∧ dims.availableHeight < MIN_BLOCK_HEIGHT
  · simp [renderBulletsR, hne, hdef.2] at h
  by_cases hfit : max ((items.length : ℚ) * BULLET_LINE_HEIGHT) MIN_BLOCK_HEIGHT ≤
      dims.availableHeight
  · have hAmin : MIN_BLOCK_HEIGHT ≤ dims.availableHeight :=
      le_trans (le_max_right _ _) hfit
    simp [renderBulletsR, hne, hfit, not_lt.mpr hAmin] at h
  have hlt : dims.availableHeight <
      max ((items.length : ℚ) * BULLET_LINE_HEIGHT) MIN_BLOCK_HEIGHT := not_le.mp hfit
  have hAmin : MIN_BLOCK_HEIGHT ≤ dims.availableHeight := by
    by_contra hcon
    exact hdef ⟨hlt, not_le.mp hcon⟩
  by_cases hkl : (max (⌊dims.availableHeight / BULLET_LINE_HEIGHT⌋ - 1) 1).toNat = items.length
  · simp [renderBulletsR, hne, hfit, not_lt.mpr hAmin, hkl] at h
  have hsplit : (renderBulletsR items dims) =
      (RenderResult.split (dims.y + dims.availableHeight)
        (Block.bullets (items.drop
          ((max (⌊dims.availableHeight / BULLET_LINE_HEIGHT⌋ - 1) 1).toNat))),
       [⟨Block.bullets (items.take
          ((max (⌊dims.availableHeight / BULLET_LINE_HEIGHT⌋ - 1) 1).toNat)), dims.y⟩]) := by
    simp [renderBulletsR, hne, hfit, not_lt.mpr hAmin, hkl]
  set k := (max (⌊dims.availableHeight / BULLET_LINE_HEIGHT⌋ - 1) 1).toNat with hk
  have hk1 : 1 ≤ k := by
    rcases le_total (⌊dims.availableHeight / BULLET_LINE_HEIGHT⌋ - 1) 1 with hm | hm
    · rw [hk, max_eq_right hm]; omega
    · rw [hk, max_eq_left hm]; omega
  constructor
  · have heq := congrArg Prod.fst hsplit
    rw [h] at heq
    rw [((RenderResult.split.injEq _ _ _ _).mp heq).2]
    simp [blockSizeB]
    omega
  · refine ⟨_, congrArg Prod.snd hsplit, ?_⟩
    simp [blockSizeB]
    omega

theorem renderImageR_not_split (alt path : Str) (sizing : Option Sizing)
    (dims : RenderDimensions) (nc : ℚ) (rem : Block) :
    (renderImageR alt path sizing dims).1 ≠ RenderResult.split nc rem := by
  by_cases hdef : max dims.availableHeight 0 < MIN_BLOCK_HEIGHT <;>
    simp [renderImageR, hdef]

theorem renderTableR_not_split (rows : List (List Str)) (dims : RenderDimensions)
    (nc : ℚ) (rem : Block) :
    (renderTableR rows dims).1 ≠ RenderResult.split nc rem := by
  by_cases hdef : max (TABLE_BASE_HEIGHT + (rows.length : ℚ) * TABLE_ROW_HEIGHT)
      MIN_BLOCK_HEIGHT > dims.availableHeight ∧ dims.availableHeight < MIN_BLOCK_HEIGHT
  · simp [renderTableR, hdef.2]
  · have : ¬ (max (TABLE_BASE_HEIGHT + (rows.length : ℚ) * TABLE_ROW_HEIGHT)
        MIN_BLOCK_HEIGHT > dims.availableHeight) ∨
        ¬ dims.availableHeight < MIN_BLOCK_HEIGHT := by tauto
    rcases this with h1 | h1 <;> simp [renderTableR, h1]

theorem renderBlockR_split (b : Block) (dims : RenderDimensions) (nc : ℚ) (rem : Block)
    (h : (renderBlockR b dims).1 = RenderResult.split nc rem) :
    blockSizeB rem < blockSizeB b ∧
    ∃ pl, (renderBlockR b dims).2 = [pl] ∧ 1 ≤ blockSizeB pl.frag := by
  cases b with
  | paragraph text => exact renderParagraphR_split text dims nc rem h
  | bullets items => exact renderBulletsR_split items dims nc rem h
  | image alt path sizing => exact absurd h (renderImageR_not_split alt path sizing dims nc rem)
  | code text lang => exact renderCodeR_split text lang dims nc rem h
  | table rows => exact absurd h (renderTableR_not_split rows dims nc rem)

theorem renderBlockR_not_defer (b : Block) (avail : ℚ) (h : MIN_BLOCK_HEIGHT ≤ avail) :
    (renderBlockR b (mkDims avail)).1 ≠ RenderResult.defer := by
  have h' : ¬ ((mkDims avail).availableHeight < MIN_BLOCK_HEIGHT) := not_lt.mpr h
  have h0 : max (mkDims avail).availableHeight 0 = (mkDims avail).availableHeight :=
    max_eq_left (le_trans (by norm_num [MIN_BLOCK_HEIGHT]) h)
  cases b with
  | paragraph text =>
    simp only [renderBlockR, renderParagraphR]
    repeat' split
    all_goals simp_all
  | bullets items =>
    simp only [renderBlockR, renderBulletsR]
    repeat' split
    all_goals simp_all
  | image alt path sizing =>
    simp only [renderBlockR, renderImageR, h0]
    repeat' split
    all_goals simp_all
  | code text lang =>
    simp only [renderCodeR, renderBlockR]
    repeat' split
    all_goals simp_all
  | table rows =>
    simp only [renderBlockR, renderTableR]
    repeat' split
    all_goals simp_all

theorem splitIter_rendered (fuel : Nat) :
    ∀ (b : Block) (avail : ℚ), blockSizeB b ≤ fuel → MIN_BLOCK_HEIGHT ≤ avail →
    isRenderedB (renderBlockR (splitIter fuel b avail) (mkDims avail)).1 = true := by
  induction fuel with
  | zero =>
    intro b avail hfuel h
    have hz : blockSizeB b = 0 := Nat.le_zero.mp hfuel
    cases b with
    | bullets items =>
      have : items = [] := List.length_eq_zero.mp hz
      subst this
      simp [splitIter, renderBlockR, renderBulletsR, isRenderedB]
    | paragraph text =>
      have := splitNL_length_pos text
      simp only [blockSizeB] at hz
      omega
    | code text lang =>
      have := splitNL_length_pos text
      simp only [blockSizeB] at hz
      omega
    | image alt path sizing =>
      simp only [blockSizeB] at hz
      omega
    | table rows =>
      simp only [blockSizeB] at hz
      omega
  | succ fuel ih =>
    intro b avail hfuel h
    cases hres : (renderBlockR b (mkDims avail)).1 with
    | rendered nc =>
      rw [splitIter, hres]
      rw [hres]
      rfl
    | defer => exact absurd hres (renderBlockR_not_defer b avail h)
    | split nc rem =>
      have hdec := (renderBlockR_split b _ nc rem hres).1
      rw [splitIter, hres]
      exact ih rem avail (by omega) h


theorem pendingSt_finalize {st : ParseState} (h : pendingSt st) :
    (finalizeCurrentSlide st).slides ≠ [] ∨ (finalizeCurrentSlide st).codeBlock.isSome := by
  rcases h with h1 | h1 | h1
  · left
    cases hcur : st.current <;> simp [finalizeCurrentSlide, hcur, h1]
  · left
    rw [Option.isSome_iff_exists] at h1
    obtain ⟨p, hp⟩ := h1
    simp [finalizeCurrentSlide, hp]
  · cases hcur : st.current <;> simp [finalizeCurrentSlide, hcur, h1]

theorem startNewSlide_current_isSome (st : ParseState) (rt : Option Str) (flag : Bool) :
    (startNewSlide st rt flag).current.isSome := by
  simp [startNewSlide]

theorem pendingSt_appendBlock (st : ParseState) (b : Block) :
    pendingSt (appendBlock st b) := by
  right; left
  rw [appendBlock, modifyCurrent]
  have := ensureSlide_isSome st
  rw [Option.isSome_iff_exists] at this
  obtain ⟨p, hp⟩ := this
  simp [hp]

theorem pendingSt_appendCodeBlock {st : ParseState} (h : pendingSt st) :
    pendingSt (appendCodeBlock st) := by
  cases hcb : st.codeBlock with
  | none =>
    simp only [appendCodeBlock, hcb]
    exact h
  | some cb =>
    right; left
    simp only [appendCodeBlock, hcb, appendBlock, modifyCurrent]
    have := ensureSlide_isSome st
    rw [Option.isSome_iff_exists] at this
    obtain ⟨p, hp⟩ := this
    simp [hp]

/-- Any step keeps a pending state pending. -/
theorem parseStep_pending (rawLine : Str) (rest : List Str) {st : ParseState}
    (h : pendingSt st) : pendingSt (parseStep rawLine rest st).1 := by
  rw [parseStep]
  cases hcb : st.codeBlock with
  | some cb =>
    by_cases hf : isCodeFence (trimEnd rawLine)
    · simp only [hf, if_true]
      exact pendingSt_appendCodeBlock (by rw [pendingSt, hcb]; right; right; rfl)
    · simp only [hf, if_false]
      right; right
      simp
  | none =>
    by_cases hblank : trim (trimEnd rawLine) = []
    · simp only [hblank, if_pos rfl]
      exact h
    rw [if_neg hblank]
    by_cases hf : isCodeFence (trimEnd rawLine)
    · simp only [hf, if_true]
      right; right; simp
    rw [if_neg hf]
    by_cases hsub : subtitleTest (trim (trimEnd rawLine))
    · simp only [hsub, if_true]
      right; left
      rw [modifyCurrent]
      have := ensureSlide_isSome st
      rw [Option.isSome_iff_exists] at this
      obtain ⟨p, hp⟩ := this
      simp [hp]
    rw [if_neg hsub]
    by_cases hhead : headingTest (trim (trimEnd rawLine))
    · simp only [hhead, if_true]
      right; left
      exact startNewSlide_current_isSome _ _ _
    rw [if_neg hhead]
    by_cases hnote : noteTest (trim (trimEnd rawLine))
    · simp only [hnote, if_true]
      right; left
      rw [appendNote, modifyCurrent]
      have := ensureSlide_isSome st
      rw [Option.isSome_iff_exists] at this
      obtain ⟨p, hp⟩ := this
      simp [hp]
    rw [if_neg hnote]
    by_cases hbg : bgTest (trim (trimEnd rawLine))
    · simp only [hbg, if_true]
      right; left
      rw [updateBackground]
      have := ensureSlide_isSome st
      rw [Option.isSome_iff_exists] at this
      obtain ⟨p, hp⟩ := this
      by_cases hb : trim (if bgTest (trimEnd rawLine) then (trimEnd rawLine).drop 4
          else trimEnd rawLine) = []
      · simp [hb, hp]
      · simp [hb, hp]
    rw [if_neg hbg]
    cases him : imageMatchF rawLine with
    | some ap => exact pendingSt_appendBlock _ _
    | none =>
      by_cases htab : isTableLine (trimEnd rawLine)
      · simp only [htab, if_true]
        exact pendingSt_appendBlock _ _
      rw [if_neg htab]
      cases hbul : bulletMatchF rawLine with
      | some m => exact pendingSt_appendBlock _ _
      | none => exact pendingSt_appendBlock _ _

/-- A non-blank line makes any state pending. -/
theorem parseStep_pending_of_nonblank (rawLine : Str) (rest : List Str) (st : ParseState)
    (hnb : trim rawLine ≠ []) : pendingSt (parseStep rawLine rest st).1 := by
  cases hcb : st.codeBlock with
  | some cb =>
    exact parseStep_pending rawLine rest (by rw [pendingSt, hcb]; right; right; rfl)
  | none =>
    rw [parseStep]
    rw [hcb]
    have hblank : ¬ (trim (trimEnd rawLine) = []) := by
      rw [trim_trimEnd]
      exact hnb
    rw [if_neg hblank]
    by_cases hf : isCodeFence (trimEnd rawLine)
    · simp only [hf, if_true]
      right; right; simp
    rw [if_neg hf]
    by_cases hsub : subtitleTest (trim (trimEnd rawLine))
    · simp only [hsub, if_true]
      right; left
      rw [modifyCurrent]
      have := ensureSlide_isSome st
      rw [Option.isSome_iff_exists] at this
      obtain ⟨p, hp⟩ := this
      simp [hp]
    rw [if_neg hsub]
    by_cases hhead : headingTest (trim (trimEnd rawLine))
    · simp only [hhead, if_true]
      exact Or.inr (Or.inl (startNewSlide_current_isSome _ _ _))
    rw [if_neg hhead]
    by_cases hnote : noteTest (trim (trimEnd rawLine))
    · simp only [hnote, if_true]
      right; left
      rw [appendNote, modifyCurrent]
      have := ensureSlide_isSome st
      rw [Option.isSome_iff_exists] at this
      obtain ⟨p, hp⟩ := this
      simp [hp]
    rw [if_neg hnote]
    by_cases hbg : bgTest (trim (trimEnd rawLine))
    · simp only [hbg, if_true]
      right; left
      rw [updateBackground]
      have := ensureSlide_isSome st
      rw [Option.isSome_iff_exists] at this
      obtain ⟨p, hp⟩ := this
      by_cases hb : trim (if bgTest (trimEnd rawLine) then (trimEnd rawLine).drop 4
          else trimEnd rawLine) = []
      · simp [hb, hp]
      · simp [hb, hp]
    rw [if_neg hbg]
    cases him : imageMatchF rawLine with
    | some ap => exact pendingSt_appendBlock _ _
    | none =>
      by_cases htab : isTableLine (trimEnd rawLine)
      · simp only [htab, if_true]
        exact pendingSt_appendBlock _ _
      rw [if_neg htab]
      cases hbul : bulletMatchF rawLine with
      | some m => exact pendingSt_appendBlock _ _
      | none => exact pendingSt_appendBlock _ _

theorem parseLoop_pending (fuel : Nat) :
    ∀ (ls : List Str) (st : ParseState), pendingSt st →
    pendingSt (parseLoop fuel ls st) := by
  induction fuel with
  | zero => intro ls st h; exact h
  | succ fuel ih =>
    intro ls st h
    cases ls with
    | nil => exact h
    | cons rawLine rest =>
      rw [parseLoop]
      exact ih _ _ (parseStep_pending rawLine rest h)

theorem parseStep_blank (rawLine : Str) (rest : List Str) (st : ParseState)
    (hcb : st.codeBlock = none) (hb : trim rawLine = []) :
    parseStep rawLine rest st = (st, rest) := by
  rw [parseStep, hcb]
  rw [if_pos (by rw [trim_trimEnd]; exact hb)]



theorem parseLoop_reach (fuel : Nat) :
    ∀ (ls : List Str) (st : ParseState), ls.length ≤ fuel →
    (∃ l ∈ ls, trim l ≠ []) → pendingSt (parseLoop fuel ls st) := by
  induction fuel with
  | zero =>
    intro ls st hlen hex
    obtain ⟨l, hl, _⟩ := hex
    rw [List.length_eq_zero.mp (Nat.le_zero.mp hlen)] at hl
    simp at hl
  | succ fuel ih =>
    intro ls st hlen hex
    cases ls with
    | nil =>
      obtain ⟨l, hl, _⟩ := hex
      simp at hl
    | cons rawLine rest =>
      rw [parseLoop]
      by_cases hnb : trim rawLine = []
      · cases hcb : st.codeBlock with
        | some cb =>
          apply parseLoop_pending
          apply parseStep_pending
          rw [pendingSt, hcb]
          right; right; rfl
        | none =>
          rw [parseStep_blank rawLine rest st hcb hnb]
          apply ih rest st (by simpa using hlen)
          obtain ⟨l, hl, hlnb⟩ := hex
          rcases List.mem_cons.mp hl with h1 | h1
          · subst h1; exact absurd hnb hlnb
          · exact ⟨l, h1, hlnb⟩
      · exact parseLoop_pending fuel _ _ (parseStep_pending_of_nonblank rawLine rest st hnb)

theorem parseLoop_blank (fuel : Nat) :
    ∀ (ls : List Str), (∀ l ∈ ls, trim l = []) →
    parseLoop fuel ls ⟨[], none, none⟩ = ⟨[], none, none⟩ := by
  induction fuel with
  | zero => intro ls _; rfl
  | succ fuel ih =>
    intro ls hls
    cases ls with
    | nil => rfl
    | cons rawLine rest =>
      rw [parseLoop, parseStep_blank rawLine rest _ rfl (hls rawLine (List.mem_cons_self _ _))]
      exact ih rest (fun l hl => hls l (List.mem_cons.mpr (Or.inr hl)))

theorem appendCodeBlock_codeBlock (st : ParseState) :
    (appendCodeBlock st).codeBlock = none := by
  cases hcb : st.codeBlock with
  | none => simp [appendCodeBlock, hcb]
  | some cb => simp [appendCodeBlock, hcb]

theorem finalize_slides_ne {st : ParseState}
    (h : st.slides ≠ [] ∨ st.current.isSome = true) :
    (finalizeCurrentSlide st).slides ≠ [] := by
  cases hcur : st.current with
  | some p => simp [finalizeCurrentSlide, hcur]
  | none =>
    rcases h with h1 | h1
    · simpa [finalizeCurrentSlide, hcur] using h1
    · rw [hcur] at h1; simp at h1

theorem pending_final_slides_ne {st : ParseState} (h : pendingSt st) :
    (finalizeCurrentSlide (appendCodeBlock st)).slides ≠ [] := by
  apply finalize_slides_ne
  have hp := pendingSt_appendCodeBlock h
  rcases hp with h1 | h1 | h1
  · exact Or.inl h1
  · exact Or.inr h1
  · rw [appendCodeBlock_codeBlock] at h1
    simp at h1


/-- C1: a slide whose only block is a table too tall for any page (its
needed height exceeds the body area of every page, which is
`safeBottom - BODY_TOP` at most) is still paginated in one iteration: the
loop terminates with exactly one page, the block is placed exactly once at
the body-top position of that otherwise-empty page, and the queue is
emptied (only the portion beyond the page is visually lost). -/
theorem claim1_oversized_unsplittable_terminates
    (rows : List (List Str)) (sb sw : ℚ) (title : Str)
    (subtitle notes bg : Option Str) (fuel : Nat)
    (hmin : BODY_TOP + MIN_BLOCK_HEIGHT ≤ sb)
    (hover : sb - BODY_TOP <
      max (TABLE_BASE_HEIGHT + (rows.length : ℚ) * TABLE_ROW_HEIGHT) MIN_BLOCK_HEIGHT) :
    renderSlideSpecF (fuel + 1) sb sw ⟨title, subtitle, [Block.table rows], notes, bg⟩ =
      some [⟨title, subtitle, notes, [⟨Block.table rows, BODY_TOP⟩]⟩] := by
  have havail : MIN_BLOCK_HEIGHT ≤ sb - BODY_TOP := by linarith
  have hrt : renderBlockR (Block.table rows) ⟨SAFE_MARGIN_X, BODY_TOP, sw, sb - BODY_TOP, sb⟩ =
      (RenderResult.rendered (BODY_TOP + (sb - BODY_TOP)), [⟨Block.table rows, BODY_TOP⟩]) := by
    simp only [renderBlockR, renderTableR]
    rw [if_neg (by rintro ⟨-, h⟩; linarith)]
    rw [min_eq_right (le_of_lt hover), max_eq_left havail]
  have hstop : sb - BLOCK_GAP ≤ BODY_TOP + (sb - BODY_TOP) + BLOCK_GAP := by
    norm_num [BLOCK_GAP]
    linarith [show (0:ℚ) < 2/5 by norm_num]
  simp only [renderSlideSpecF, pagesLoopF, fillPageF, hrt]
  norm_num [hstop]

theorem claim1_witness :
    BODY_TOP + MIN_BLOCK_HEIGHT ≤ (4.925 : ℚ) ∧
    (4.925 : ℚ) - BODY_TOP <
      max (TABLE_BASE_HEIGHT +
        ((List.replicate 8 [['x']] : List (List Str)).length : ℚ) * TABLE_ROW_HEIGHT)
        MIN_BLOCK_HEIGHT ∧
    renderSlideSpecF 1 4.925 8
        ⟨"T".data, none, [Block.table (List.replicate 8 [['x']])], none, none⟩ =
      some [⟨"T".data, none, none, [⟨Block.table (List.replicate 8 [['x']]), BODY_TOP⟩]⟩] :=
  ⟨by norm_num [BODY_TOP, MIN_BLOCK_HEIGHT],
   by norm_num [TABLE_BASE_HEIGHT, TABLE_ROW_HEIGHT, MIN_BLOCK_HEIGHT, BODY_TOP],
   claim1_oversized_unsplittable_terminates (List.replicate 8 [['x']]) 4.925 8 "T".data
     none none none 0 (by norm_num [BODY_TOP, MIN_BLOCK_HEIGHT])
     (by norm_num [TABLE_BASE_HEIGHT, TABLE_ROW_HEIGHT, MIN_BLOCK_HEIGHT, BODY_TOP])⟩


/-- Helper: when ten bullet items fit (`10·BLH ≤ A < 11·BLH`) but the
block has 50 items, `renderBullets` splits after `⌊A/BLH⌋ - 1 = 9` items. -/
theorem renderBulletsR_ten_fit (items : List BulletItem) (dims : RenderDimensions)
    (hlen : items.length = 50)
    (h1 : 10 * BULLET_LINE_HEIGHT ≤ dims.availableHeight)
    (h2 : dims.availableHeight < 11 * BULLET_LINE_HEIGHT) :
    renderBulletsR items dims =
      (RenderResult.split (dims.y + dims.availableHeight) (Block.bullets (items.drop 9)),
       [⟨Block.bullets (items.take 9), dims.y⟩]) := by
  have hA1 : (19 : ℚ)/5 ≤ dims.availableHeight := by
    rw [show (10 : ℚ) * BULLET_LINE_HEIGHT = 19/5 by norm_num [BULLET_LINE_HEIGHT]] at h1
    exact h1
  have hA2 : dims.availableHeight < 209/50 := by
    rw [show (11 : ℚ) * BULLET_LINE_HEIGHT = 209/50 by norm_num [BULLET_LINE_HEIGHT]] at h2
    exact h2
  have hfloor : ⌊dims.availableHeight / BULLET_LINE_HEIGHT⌋ = 10 := by
    rw [Int.floor_eq_iff]
    constructor
    · rw [le_div_iff₀ (by norm_num [BULLET_LINE_HEIGHT] : (0:ℚ) < BULLET_LINE_HEIGHT)]
      push_cast
      norm_num [BULLET_LINE_HEIGHT]
      linarith
    · rw [div_lt_iff₀ (by norm_num [BULLET_LINE_HEIGHT] : (0:ℚ) < BULLET_LINE_HEIGHT)]
      push_cast
      norm_num [BULLET_LINE_HEIGHT]
      linarith
  have hneeded : max (((50 : ℕ) : ℚ) * BULLET_LINE_HEIGHT) MIN_BLOCK_HEIGHT = 19 := by
    norm_num [BULLET_LINE_HEIGHT, MIN_BLOCK_HEIGHT]
  have hnle : ¬ ((19:ℚ) ≤ dims.availableHeight) := by linarith
  simp only [renderBulletsR, hlen, hneeded, hfloor]
  rw [if_neg (by decide : ¬ (50 = 0))]
  rw [if_neg (by rintro ⟨-, h⟩; norm_num [MIN_BLOCK_HEIGHT] at h; linarith)]
  rw [if_neg hnle]
  rw [if_neg (by decide : ¬ ((((10:ℤ) - 1) ⊔ 1).toNat = 50))]
  rfl

/-- C3 (counterexample): for the 50-item bullet block at an available
height of exactly ten bullet line heights (3.8), the placement result is a
split whose drawn head has 9 items and whose remainder has 41 items — not
the 10/40 split the claim states. -/
theorem claim3_counterexample :
    renderBulletsR (List.replicate 50 (⟨['x'], BulletType.bullet, 0⟩ : BulletItem))
        ⟨0.6, 1.6, 8, 3.8, 5.4⟩ =
      (RenderResult.split ((1.6 : ℚ) + 3.8)
        (Block.bullets ((List.replicate 50 (⟨['x'], BulletType.bullet, 0⟩ : BulletItem)).drop 9)),
       [⟨Block.bullets ((List.replicate 50 (⟨['x'], BulletType.bullet, 0⟩ : BulletItem)).take 9),
         1.6⟩]) ∧
    (List.replicate 50 (⟨['x'], BulletType.bullet, 0⟩ : BulletItem)).drop 9 ≠
      (List.replicate 50 (⟨['x'], BulletType.bullet, 0⟩ : BulletItem)).drop 10 ∧
    ((List.replicate 50 (⟨['x'], BulletType.bullet, 0⟩ : BulletItem)).drop 9).length = 41 := by
  refine ⟨?_, by decide, by decide⟩
  exact renderBulletsR_ten_fit _ _ (by decide)
    (by norm_num [BULLET_LINE_HEIGHT])
    (by norm_num [BULLET_LINE_HEIGHT])

/-- C3 (amended): with 50 items and an available height that fits exactly
ten of them, the result is Split with the first 9 items drawn on the
current page and the remaining 41 items, in order, as the remainder
fragment — the code draws `⌊availableHeight / BULLET_LINE_HEIGHT⌋ - 1`
items, one fewer than would fit. -/
theorem claim3_amended (items : List BulletItem) (dims : RenderDimensions)
    (hlen : items.length = 50)
    (h1 : 10 * BULLET_LINE_HEIGHT ≤ dims.availableHeight)
    (h2 : dims.availableHeight < 11 * BULLET_LINE_HEIGHT) :
    renderBulletsR items dims =
      (RenderResult.split (dims.y + dims.availableHeight) (Block.bullets (items.drop 9)),
       [⟨Block.bullets (items.take 9), dims.y⟩]) :=
  renderBulletsR_ten_fit items dims hlen h1 h2

theorem claim3_witness :
    ((List.replicate 50 (⟨['y'], BulletType.number, 1⟩ : BulletItem)).length = 50) ∧
    (10 * BULLET_LINE_HEIGHT ≤ (4 : ℚ)) ∧ ((4 : ℚ) < 11 * BULLET_LINE_HEIGHT) ∧
    renderBulletsR (List.replicate 50 (⟨['y'], BulletType.number, 1⟩ : BulletItem))
        ⟨0.6, 1.6, 8, 4, 5.8⟩ =
      (RenderResult.split ((1.6 : ℚ) + 4)
        (Block.bullets ((List.replicate 50 (⟨['y'], BulletType.number, 1⟩ : BulletItem)).drop 9)),
       [⟨Block.bullets ((List.replicate 50 (⟨['y'], BulletType.number, 1⟩ : BulletItem)).take 9),
         1.6⟩]) :=
  ⟨by decide, by norm_num [BULLET_LINE_HEIGHT], by norm_num [BULLET_LINE_HEIGHT],
   claim3_amended _ _ (by decide) (by norm_num [BULLET_LINE_HEIGHT])
     (by norm_num [BULLET_LINE_HEIGHT])⟩

/-- C7: a slide spec with zero blocks is paginated to exactly one page,
carrying the title, subtitle and notes — never zero pages, never more. -/
theorem claim7_empty_blocks_single_page (title : Str) (subtitle notes bg : Option Str)
    (sb sw : ℚ) (fuel : Nat) :
    renderSlideSpecF (fuel + 1) sb sw ⟨title, subtitle, [], notes, bg⟩ =
      some [⟨title, subtitle, notes, []⟩] := by
  simp [renderSlideSpecF, pagesLoopF, fillPageF]

/-- C8: the concrete input `"# Intro\n\nHello world\n\n# Two\n- a\n- b\n"`
parses to exactly two slides: `Intro` with the single paragraph
`Hello world`, and `Two` with a single bullets block holding `a` and `b`
as plain level-0 bullets, in order. -/
theorem claim8_concrete_parse :
    parseSlides "# Intro\n\nHello world\n\n# Two\n- a\n- b\n".data =
      [⟨"Intro".data, none, [Block.paragraph "Hello world".data], none, none⟩,
       ⟨"Two".data, none,
        [Block.bullets
          [⟨"a".data, BulletType.bullet, 0⟩, ⟨"b".data, BulletType.bullet, 0⟩]],
        none, none⟩] := by decide

/-- C2: the code includes, as an ordinary table row, the row parsed from
the line `|---|---|`, a line consisting solely of pipes and dashes: the
separator-exclusion regexp `^\|[\s:-]+\|$` does not match it because its
character class has no `|`.  The claim (and the spec) say such rows are
excluded; the code emits `["---","---"]` as a data row. -/
theorem claim2_separator_row_included :
    parseSlides "| A | B |\n|---|---|\n| 1 | 2 |".data =
      [⟨"Slide 1".data, none,
        [Block.table [["A".data, "B".data], ["---".data, "---".data],
          ["1".data, "2".data]]],
        none, none⟩] ∧
    (∀ c, c ∈ "|---|---|".data → (c = '|' ∨ c = ':' ∨ c = '-' ∨ isWS c = true)) := by
  refine ⟨by decide, by decide⟩


/-- C4: for every Paragraph block produced by the parser, concatenating
(with newline separators) the head text drawn at each split step with the
final remainder text over the full recursive split sequence, then
trimming, yields exactly the original paragraph text trimmed the same way:
the split is lossless and order-preserving. -/
theorem claim4_paragraph_split_lossless (input : Str) (sl : SlideSpec)
    (hsl : sl ∈ parseSlides input) (t : Str) (ht : Block.paragraph t ∈ sl.blocks)
    (avails : List ℚ) :
    trim (joinNL (paraChain avails t)) = trim t := by
  rw [parseSlides] at hsl
  obtain ⟨p, hp, hfst⟩ := List.mem_map.mp hsl
  obtain ⟨n, hn⟩ := List.mem_iff_get.mp hp
  have hgood := parseSlidesAnn_good input n.1 n.2
  rw [show (⟨n.1, n.2⟩ : Fin _) = n from rfl, hn] at hgood
  have hnorm : paraNormal t :=
    (hgood.2.2 (Block.paragraph t) (by rw [hfst]; exact ht)).2 t rfl
  rw [paraChain_join avails t hnorm]

theorem claim4_witness :
    trim (joinNL (paraChain [(1:ℚ)] "hello".data)) = trim "hello".data :=
  claim4_paragraph_split_lossless "hello".data
    ⟨"Slide 1".data, none, [Block.paragraph "hello".data], none, none⟩
    (by decide) "hello".data (by decide) [1]

/-- C5: every slide of the parser output has a non-empty title, and a
slide created without a heading line or from a blank heading title
(`SlideOrigin.autoTitled`) has title `Slide {N}` with `N` its 1-based
position in the output. -/
theorem claim5_titles (input : Str) :
    (∀ sl ∈ parseSlides input, sl.title ≠ []) ∧
    (∀ i (h : i < (parseSlidesAnn input).length),
      ((parseSlidesAnn input).get ⟨i, h⟩).2 = SlideOrigin.autoTitled →
      ((parseSlidesAnn input).get ⟨i, h⟩).1.title = slideDefaultTitle (i + 1)) := by
  constructor
  · intro sl hsl
    rw [parseSlides] at hsl
    obtain ⟨p, hp, hfst⟩ := List.mem_map.mp hsl
    obtain ⟨n, hn⟩ := List.mem_iff_get.mp hp
    have hgood := parseSlidesAnn_good input n.1 n.2
    rw [show (⟨n.1, n.2⟩ : Fin _) = n from rfl, hn] at hgood
    rw [← hfst]
    exact hgood.1
  · intro i h hauto
    exact (parseSlidesAnn_good input i h).2.1 hauto

theorem claim5_witness :
    ((⟨"Slide 1".data, none, [Block.paragraph "hello".data], none, none⟩ :
      SlideSpec).title ≠ []) ∧
    ((parseSlidesAnn "hello".data).get ⟨0, by decide⟩).1.title = slideDefaultTitle (0 + 1) :=
  ⟨(claim5_titles "hello".data).1
      ⟨"Slide 1".data, none, [Block.paragraph "hello".data], none, none⟩ (by decide),
   (claim5_titles "hello".data).2 0 (by decide) (by decide)⟩

/-- C6: every bullet item the parser emits has `indentLevel` at most 3
(clamped `⌊indentWidth/2⌋` with tabs as two spaces), and concretely a
bullet line with a 10-space indent parses to level 3, not 5. -/
theorem claim6_indent_clamped :
    (∀ (input : Str), ∀ sl ∈ parseSlides input, ∀ items,
      Block.bullets items ∈ sl.blocks → ∀ it ∈ items, it.indentLevel ≤ 3) ∧
    parseSlides "          - a".data =
      [⟨"Slide 1".data, none, [Block.bullets [⟨"a".data, BulletType.bullet, 3⟩]],
        none, none⟩] := by
  constructor
  · intro input sl hsl items hitems it hit
    rw [parseSlides] at hsl
    obtain ⟨p, hp, hfst⟩ := List.mem_map.mp hsl
    obtain ⟨n, hn⟩ := List.mem_iff_get.mp hp
    have hgood := parseSlidesAnn_good input n.1 n.2
    rw [show (⟨n.1, n.2⟩ : Fin _) = n from rfl, hn] at hgood
    exact (hgood.2.2 (Block.bullets items) (by rw [hfst]; exact hitems)).1 items rfl it hit
  · decide

theorem claim6_witness :
    (⟨"a".data, BulletType.bullet, 3⟩ : BulletItem).indentLevel ≤ 3 :=
  claim6_indent_clamped.1 "          - a".data
    ⟨"Slide 1".data, none, [Block.bullets [⟨"a".data, BulletType.bullet, 3⟩]], none, none⟩
    (by decide) [⟨"a".data, BulletType.bullet, 3⟩] (by decide)
    ⟨"a".data, BulletType.bullet, 3⟩ (by decide)

/-- C9: whenever `renderBlock` answers Split, the drawn head is a single
placement holding at least one line or item and the remainder fragment is
strictly smaller than the input block; consequently repeated splitting (at
any fixed available height of at least the minimum block height) reaches a
Rendered result within `blockSizeB` steps. -/
theorem claim9_split_decreases :
    (∀ (b : Block) (dims : RenderDimensions) (nc : ℚ) (rem : Block),
      (renderBlockR b dims).1 = RenderResult.split nc rem →
      blockSizeB rem < blockSizeB b ∧
      ∃ pl, (renderBlockR b dims).2 = [pl] ∧ 1 ≤ blockSizeB pl.frag) ∧
    (∀ (b : Block) (avail : ℚ), MIN_BLOCK_HEIGHT ≤ avail →
      isRenderedB (renderBlockR (splitIter (blockSizeB b) b avail) (mkDims avail)).1 =
        true) :=
  ⟨renderBlockR_split, fun b avail h => splitIter_rendered (blockSizeB b) b avail le_rfl h⟩

theorem claim9_witness :
    (blockSizeB (Block.paragraph "b\nc\nd".data) <
        blockSizeB (Block.paragraph "a\nb\nc\nd".data) ∧
      ∃ pl, (renderBlockR (Block.paragraph "a\nb\nc\nd".data) (mkDims 1)).2 = [pl] ∧
        1 ≤ blockSizeB pl.frag) ∧
    isRenderedB (renderBlockR
      (splitIter (blockSizeB (Block.paragraph "a\nb\nc\nd".data))
        (Block.paragraph "a\nb\nc\nd".data) 1) (mkDims 1)).1 = true := by
  have hlines : splitNL "a\nb\nc\nd".data =
      ["a".data, "b".data, "c".data, "d".data] := by decide
  have hfloor : ⌊(1:ℚ) / LINE_HEIGHT⌋ = 2 := by
    rw [Int.floor_eq_iff]
    constructor
    · rw [le_div_iff₀ (by norm_num [LINE_HEIGHT] : (0:ℚ) < LINE_HEIGHT)]
      norm_num [LINE_HEIGHT]
    · rw [div_lt_iff₀ (by norm_num [LINE_HEIGHT] : (0:ℚ) < LINE_HEIGHT)]
      norm_num [LINE_HEIGHT]
  have hsplit : (renderBlockR (Block.paragraph "a\nb\nc\nd".data) (mkDims 1)).1 =
      RenderResult.split ((mkDims 1).y + 1) (Block.paragraph "b\nc\nd".data) := by
    simp only [renderBlockR, renderParagraphR, hlines, mkDims]
    rw [if_neg (by norm_num [LINE_HEIGHT, MIN_BLOCK_HEIGHT])]
    rw [if_neg (by norm_num [MIN_BLOCK_HEIGHT])]
    rw [show ((1:ℚ) / LINE_HEIGHT) = (1:ℚ) / LINE_HEIGHT from rfl]
    rw [hfloor]
    rfl
  exact ⟨claim9_split_decreases.1 (Block.paragraph "a\nb\nc\nd".data) (mkDims 1)
      ((mkDims 1).y + 1) (Block.paragraph "b\nc\nd".data) hsplit,
    claim9_split_decreases.2 (Block.paragraph "a\nb\nc\nd".data) 1
      (by norm_num [MIN_BLOCK_HEIGHT])⟩

/-- C10: the parser returns an empty slide list exactly when every line of
the newline-normalized input is blank; any non-blank line (a lone code
fence marker included) produces at least one slide. -/
theorem claim10_empty_iff_all_blank (input : Str) :
    parseSlides input = [] ↔ ∀ l ∈ splitNL (normNL input), trim l = [] := by
  constructor
  · intro h l hl
    by_contra hnb
    have hpend := parseLoop_reach (splitNL (normNL input)).length (splitNL (normNL input))
      ⟨[], none, none⟩ le_rfl ⟨l, hl, hnb⟩
    have hne := pending_final_slides_ne hpend
    rw [parseSlides, parseSlidesAnn, List.map_eq_nil_iff] at h
    exact hne h
  · intro h
    rw [parseSlides, parseSlidesAnn, parseLoop_blank _ _ h]
    rfl

theorem claim10_witness : parseSlides ['a'] ≠ [] := fun hcon =>
  absurd ((claim10_empty_iff_all_blank ['a']).mp hcon ['a'] (by decide)) (by decide)


end TxtPpt
